import Mathlib

/-
  Verification of the geojson-path-finder specification against its source.

  Shallow embedding conventions:
  * JavaScript numbers are modelled as exact rationals.  No claim in scope
    depends on floating-point rounding behaviour.
  * JavaScript objects used as string-keyed dictionaries are modelled as
    association lists in insertion order, mirroring property-insertion order
    semantics (all keys in this code base are coordinate strings, never
    array indices).  Property assignment updates in place or appends,
    deletion removes the entry and preserves the order of the rest.
  * Callbacks that are invoked for side effects (onNodeExpanded) are
    modelled by an event trace returned alongside the search result.
  * Unbounded loops are modelled with explicit fuel; a search result of
    `none` means the fuel was exhausted, `some none` means the source
    returned undefined (no path), `some (some r)` is a found path.
-/

set_option maxRecDepth 100000

set_option maxHeartbeats 1000000

namespace GeoPF

abbrev Key := String

abbrev Position := List ℚ

/-- Association-list rendering of a string-keyed JavaScript object. -/
def Fmap (α : Type) : Type := List (Key × α)

instance (α : Type) [DecidableEq α] : DecidableEq (Fmap α) := by
  unfold Fmap; infer_instance

instance (α : Type) : Membership (Key × α) (Fmap α) := by
  unfold Fmap; infer_instance

def Fmap.nil {α : Type} : Fmap α := ([] : List (Key × α))

/-- Property lookup: first entry with the key. -/
def Fmap.get {α : Type} : Fmap α → Key → Option α
  | [], _ => none
  | p :: rest, k => if p.1 = k then some p.2 else Fmap.get rest k

/-- Property assignment: update in place, or append a new entry. -/
def Fmap.set {α : Type} : Fmap α → Key → α → Fmap α
  | [], k, v => [(k, v)]
  | p :: rest, k, v => if p.1 = k then (k, v) :: rest else p :: Fmap.set rest k v

/-- Property deletion. -/
def Fmap.erase {α : Type} (m : Fmap α) (k : Key) : Fmap α :=
  List.filter (fun p => p.1 ≠ k) m

/-- Object.keys, in insertion order. -/
def Fmap.keys {α : Type} (m : Fmap α) : List Key :=
  List.map Prod.fst m

/-- Update the value stored at a key when the key is present (used where the
source would dereference the row before mutating it). -/
def Fmap.modifyAt {α : Type} (m : Fmap α) (k : Key) (f : α → α) : Fmap α :=
  List.map (fun p => if p.1 = k then (p.1, f p.2) else p) m

/-- Math.round: round half toward positive infinity. -/
def jround (q : ℚ) : ℤ := ⌊q + 1 / 2⌋

/-- round-coord.ts: `roundCoord` rounds the first two components to the
tolerance grid and passes any further components through unchanged. -/
def roundCoord (coord : Position) (tolerance : ℚ) : Position :=
  (jround (coord.getD 0 0 / tolerance) : ℚ) * tolerance ::
    (jround (coord.getD 1 0 / tolerance) : ℚ) * tolerance ::
      coord.drop 2

theorem jround_intCast (k : ℤ) : jround (k : ℚ) = k := by
  unfold jround
  rw [add_comm]
  rw [Int.floor_add_int]
  norm_num

/-! ## Search algorithms

`dijkstra.ts` and the a-star module share the option object built by the
facade.  The facade stores `directionBias`, `transitionGuard` and
`onNodeExpanded` on it; `dijkstra.ts` reads `directionBias` and
`isTurnAllowed` (which the facade never sets), the a-star reads
`directionBias` only.  `onNodeExpanded` invocations are modelled by the
returned trace; the flag records whether the caller supplied the callback. -/

/-- The callback signatures take the named arguments
`{cost, from, to, path}` the sources pass. -/
structure SharedSearchOptions where
  directionBias : Option (ℚ → Key → Key → List Key → ℚ) := none
  transitionGuard : Option (ℚ → Key → Key → List Key → Bool) := none
  isTurnAllowed : Option (List Key → Key → Key → Bool) := none
  onNodeExpanded : Bool := false

/-- dijkstra.ts `State`: `[cost, path, node]`. -/
structure DState where
  cost : ℚ
  path : List Key
  node : Key
deriving DecidableEq

/-- Priority-queue insertion, minimum cost first.  tinyqueue is an external
binary min-heap; we model it by a sorted list whose exact order among
equal-cost entries is likewise an implementation detail. -/
def dinsert (s : DState) : List DState → List DState
  | [] => [s]
  | x :: xs => if x.cost ≤ s.cost then x :: dinsert s xs else s :: x :: xs

/-- The neighbour loop of dijkstra.ts (`Object.keys(neighbours).forEach`):
guard on `isTurnAllowed`, compute the bias, relax.  The source also skips
when `newCost` is not below Infinity, which cannot occur for rationals. -/
def dRelax1 (opts : SharedSearchOptions) (row : Fmap ℚ) (cost : ℚ) (node : Key)
    (path : List Key) (cq : Fmap ℚ × List DState) (n : Key) : Fmap ℚ × List DState :=
  let allowed := match opts.isTurnAllowed with
    | some f => f path node n
    | none => true
  if allowed then
    let bias := match opts.directionBias with
      | some f => f cost node n path
      | none => 0
    let newCost := cost + (row.get n).getD 0 + bias
    let improves := match cq.1.get n with
      | none => true
      | some c => decide (newCost < c)
    if improves then
      (cq.1.set n newCost, dinsert ⟨newCost, path ++ [n], n⟩ cq.2)
    else cq
  else cq

def dRelax (opts : SharedSearchOptions) (row : Fmap ℚ) (cost : ℚ) (node : Key)
    (path : List Key) (costs : Fmap ℚ) (queue : List DState) : Fmap ℚ × List DState :=
  row.keys.foldl (dRelax1 opts row cost node path) (costs, queue)

/-- The `while (true)` loop of dijkstra.ts `findPath`.  Every popped entry
reports an `onNodeExpanded` event; there is no staleness check. -/
def dijkstraLoop (graph : Fmap (Fmap ℚ)) (endK : Key) (opts : SharedSearchOptions) :
    Nat → Fmap ℚ → List DState → List (Key × ℚ) →
    Option (Option (ℚ × List Key) × List (Key × ℚ))
  | 0, _, _, _ => none
  | fuel + 1, costs, queue, trace =>
    match queue with
    | [] => some (none, trace)
    | st :: rest =>
      let trace := trace ++ [(st.node, st.cost)]
      if st.node = endK then some (some (st.cost, st.path), trace)
      else
        let row := (graph.get st.node).getD Fmap.nil
        let cq := dRelax opts row st.cost st.node st.path costs rest
        dijkstraLoop graph endK opts fuel cq.1 cq.2 trace

/-- dijkstra.ts `findPath`. -/
def findPathDijkstra (fuel : Nat) (graph : Fmap (Fmap ℚ)) (start endK : Key)
    (opts : SharedSearchOptions) :
    Option (Option (ℚ × List Key) × List (Key × ℚ)) :=
  dijkstraLoop graph endK opts fuel [(start, 0)] [⟨0, [start], start⟩] []

/-- a-star `State`: `{cost, estimate, path, node}`. -/
structure AState where
  cost : ℚ
  estimate : ℚ
  path : List Key
  node : Key
deriving DecidableEq

def ainsert (s : AState) : List AState → List AState
  | [] => [s]
  | x :: xs => if x.estimate ≤ s.estimate then x :: ainsert s xs else s :: x :: xs

/-- a-star `heuristic`: great-circle distance between the stored coordinates,
or 0 when either is missing.  The distance metric itself is an external
collaborator (turf) and is injected as `d`, as the specification prescribes. -/
def heuristic (d : Position → Position → ℚ) (coordinates : Option (Fmap Position))
    (k goal : Key) : ℚ :=
  match coordinates with
  | none => 0
  | some cs =>
    match cs.get k, cs.get goal with
    | some a, some b => d a b
    | _, _ => 0

/-- The neighbour loop of the a-star `findPath`; the `newCost >= Infinity`
skip cannot occur for rationals. -/
def aRelax1 (opts : SharedSearchOptions) (d : Position → Position → ℚ)
    (coordinates : Option (Fmap Position)) (endK : Key) (row : Fmap ℚ) (cost : ℚ)
    (node : Key) (path : List Key) (cq : Fmap ℚ × List AState) (n : Key) :
    Fmap ℚ × List AState :=
  let bias := match opts.directionBias with
    | some f => f cost node n path
    | none => 0
  let newCost := cost + (row.get n).getD 0 + bias
  let improves := match cq.1.get n with
    | none => true
    | some c => decide (newCost < c)
  if improves then
    let estimate := newCost + heuristic d coordinates n endK
    (cq.1.set n newCost, ainsert ⟨newCost, estimate, path ++ [n], n⟩ cq.2)
  else cq

def aRelax (opts : SharedSearchOptions) (d : Position → Position → ℚ)
    (coordinates : Option (Fmap Position)) (endK : Key) (row : Fmap ℚ) (cost : ℚ)
    (node : Key) (path : List Key) (costs : Fmap ℚ) (queue : List AState) :
    Fmap ℚ × List AState :=
  row.keys.foldl (aRelax1 opts d coordinates endK row cost node path) (costs, queue)

/-- The `while (true)` loop of the a-star `findPath`.  A popped entry whose
cost exceeds `costs[node] ?? Infinity` is skipped before the
`onNodeExpanded` event and the goal check. -/
def astarLoop (graph : Fmap (Fmap ℚ)) (endK : Key) (opts : SharedSearchOptions)
    (d : Position → Position → ℚ) (coordinates : Option (Fmap Position)) :
    Nat → Fmap ℚ → List AState → List (Key × ℚ) →
    Option (Option (ℚ × List Key) × List (Key × ℚ))
  | 0, _, _, _ => none
  | fuel + 1, costs, queue, trace =>
    match queue with
    | [] => some (none, trace)
    | st :: rest =>
      let stale := match costs.get st.node with
        | some c => decide (c < st.cost)
        | none => false
      if stale then astarLoop graph endK opts d coordinates fuel costs rest trace
      else
        let trace := trace ++ [(st.node, st.cost)]
        if st.node = endK then some (some (st.cost, st.path), trace)
        else
          let row := (graph.get st.node).getD Fmap.nil
          let cq := aRelax opts d coordinates endK row st.cost st.node st.path costs rest
          astarLoop graph endK opts d coordinates fuel cq.1 cq.2 trace

/-- a-star `findPath`. -/
def findPathAStar (fuel : Nat) (graph : Fmap (Fmap ℚ)) (start endK : Key)
    (opts : SharedSearchOptions) (coordinates : Option (Fmap Position))
    (d : Position → Position → ℚ) :
    Option (Option (ℚ × List Key) × List (Key × ℚ)) :=
  astarLoop graph endK opts d coordinates fuel
    [(start, 0)]
    [⟨0, heuristic d coordinates start endK, [start], start⟩] []

/-! ## The graph and the phantom injector -/

/-- types.ts `PathFinderGraph`.  Edge payloads are opaque to the claims in
scope and are modelled by rationals; an entry whose stored value is `none`
renders a property that is present with the value `undefined`. -/
structure Graph where
  vertices : Fmap (Fmap ℚ)
  edgeData : Fmap (Fmap (Option ℚ))
  sourceCoordinates : Fmap Position
  compactedVertices : Fmap (Fmap ℚ)
  compactedCoordinates : Fmap (Fmap (List Position))
  compactedEdges : Fmap (Fmap (Option ℚ))
deriving DecidableEq

/-- Neighbours of a vertex in the undirected sense (an edge in either
direction), used by the chain walks of the compactor model. -/
def undirectedNeighbors (vertices : Fmap (Fmap ℚ)) (k : Key) : List Key :=
  let fwd := ((vertices.get k).getD Fmap.nil).keys
  let back := vertices.filterMap
    (fun p => if (Fmap.get p.2 k).isSome ∧ ¬ fwd.contains p.1 then some p.1 else none)
  fwd ++ back

/-- Modelled from the spec: the forward half of the compactor chain walk of
§4.3/§4.4 (compactor.ts is not under src/).  From `prev` the walk steps to
`cur` along the directed edge `prev → cur`, accumulates that edge's weight,
and continues through compactable vertices until it reaches a vertex of the
compacted table, returning that junction, the chain weight and the ordered
list of strictly interior coordinates.  A missing directed edge or a walk
that returns to a non-junction dead end aborts (the collapsed edge does not
exist in this direction). -/
def forwardWalk (vertices ends : Fmap (Fmap ℚ)) (coordsrc : Fmap Position) :
    Nat → Key → Key → ℚ → List Position → Option (Key × ℚ × List Position)
  | 0, _, _, _, _ => none
  | fuel + 1, prev, cur, w, cs =>
    match (vertices.get prev).bind (fun row => row.get cur) with
    | none => none
    | some st =>
      if (ends.get cur).isSome then some (cur, w + st, cs.reverse)
      else
        match (undirectedNeighbors vertices cur).filter (fun v => v ≠ prev) with
        | [next] =>
          forwardWalk vertices ends coordsrc fuel cur next (w + st)
            ((coordsrc.get cur).getD [] :: cs)
        | _ => none

/-- Modelled from the spec: the reverse half of the chain walk of §4.4; it
follows directed edges pointing toward the phantom, so it traverses the
edge `cur → prev` at each step.  It returns the junction the incoming chain
starts from, the chain weight, and the chain coordinates from the junction
side up to and excluding the phantom. -/
def backwardWalk (vertices ends : Fmap (Fmap ℚ)) (coordsrc : Fmap Position) :
    Nat → Key → Key → ℚ → List Position → Option (Key × ℚ × List Position)
  | 0, _, _, _, _ => none
  | fuel + 1, prev, cur, w, cs =>
    match (vertices.get cur).bind (fun row => row.get prev) with
    | none => none
    | some st =>
      if (ends.get cur).isSome then some (cur, w + st, cs)
      else
        match (undirectedNeighbors vertices cur).filter (fun v => v ≠ prev) with
        | [next] =>
          backwardWalk vertices ends coordsrc fuel cur next (w + st)
            ((coordsrc.get cur).getD [] :: cs)
        | _ => none

/-- compactor.ts `compactNode` output for a phantom. -/
structure CompactedNode where
  edges : Fmap ℚ
  coordinates : Fmap (List Position)
  incomingEdges : Fmap ℚ
  incomingCoordinates : Fmap (List Position)
  reducedEdges : Fmap (Option ℚ)
deriving DecidableEq

/-- Modelled from the spec: compactor.ts `compactNode` is not under src/.
Following §4.3/§4.4, the node is treated as a junction: each incident raw
edge is walked out, both directions independently, to the nearest compacted
vertex, collecting weight and intermediate coordinates; when two walks
reach the same junction the lighter chain wins.  The stored coordinate list
of a collapsed edge (u,v) is u's own coordinate followed by the interior
coordinates, excluding v — the convention the reconstruction code and the
tests under src/ fix (the reconstruction appends the finish coordinate
once).  Loops back to the node itself are dropped, and payload reduction is
not modelled (payloads stay absent). -/
def compactOutStep (fuel : Nat) (n : Key) (vertices ends : Fmap (Fmap ℚ))
    (coordsrc : Fmap Position) (acc : CompactedNode) (j : Key) : CompactedNode :=
  match forwardWalk vertices ends coordsrc fuel n j 0 [] with
  | none => acc
  | some (vk, w, inter) =>
    if vk = n then acc
    else
      let better := match acc.edges.get vk with
        | none => true
        | some w0 => decide (w < w0)
      if better then
        { acc with
          edges := acc.edges.set vk w
          coordinates := acc.coordinates.set vk ((coordsrc.get n).getD [] :: inter) }
      else acc

def compactInStep (fuel : Nat) (n : Key) (vertices ends : Fmap (Fmap ℚ))
    (coordsrc : Fmap Position) (acc : CompactedNode) (p : Key) : CompactedNode :=
  match backwardWalk vertices ends coordsrc fuel n p 0 [] with
  | none => acc
  | some (vk, w, inter) =>
    if vk = n then acc
    else
      let better := match acc.incomingEdges.get vk with
        | none => true
        | some w0 => decide (w < w0)
      if better then
        { acc with
          incomingEdges := acc.incomingEdges.set vk w
          incomingCoordinates := acc.incomingCoordinates.set vk
            (inter ++ [(coordsrc.get n).getD []]) }
      else acc

def compactNode (fuel : Nat) (n : Key) (vertices ends : Fmap (Fmap ℚ))
    (coordsrc : Fmap Position) : CompactedNode :=
  let outs := ((vertices.get n).getD Fmap.nil).keys
  let base : CompactedNode := ⟨Fmap.nil, Fmap.nil, Fmap.nil, Fmap.nil, Fmap.nil⟩
  let withOut := outs.foldl (compactOutStep fuel n vertices ends coordsrc) base
  let preds := vertices.filterMap
    (fun p => if (Fmap.get p.2 n).isSome then some p.1 else none)
  preds.foldl (compactInStep fuel n vertices ends coordsrc) withOut

/-- The body of the `_createPhantom` loop over the phantom's incoming
neighbours: register the `neighbor → n` edge on all three compacted maps,
with geometry `[coord(neighbor), ...incomingCoordinates.slice(0, -1)]`. -/
def phantomRegisterStep (src : Fmap Position) (ph : CompactedNode) (n : Key)
    (acc : Fmap (Fmap ℚ) × Fmap (Fmap (List Position)) × Fmap (Fmap (Option ℚ)))
    (neighbor : Key) :
    Fmap (Fmap ℚ) × Fmap (Fmap (List Position)) × Fmap (Fmap (Option ℚ)) :=
  let cv := acc.1.set neighbor
    (((acc.1.get neighbor).getD Fmap.nil).set n ((ph.incomingEdges.get neighbor).getD 0))
  let cc := acc.2.1.set neighbor
    (((acc.2.1.get neighbor).getD Fmap.nil).set n
      ((src.get neighbor).getD [] ::
        (((ph.incomingCoordinates.get neighbor).getD []).dropLast)))
  let ce := acc.2.2.set neighbor
    (((acc.2.2.get neighbor).getD Fmap.nil).set n ((ph.reducedEdges.get neighbor).getD none))
  (cv, cc, ce)

/-- index.ts `_createPhantom`: register the phantom's outgoing edges, and on
each incoming neighbour the `neighbor → n` edge with geometry
`[coord(neighbor), ...incomingCoordinates.slice(0, -1)]`.  The
`compactedEdges` registration runs whenever the graph has the table —
always — regardless of `hasEdgeDataReducer`. -/
def createPhantom (fuel : Nat) (g : Graph) (hasReducer : Bool) (n : Key) :
    Graph × Option Key :=
  if (g.compactedVertices.get n).isSome then (g, none)
  else
    let ph := compactNode fuel n g.vertices g.compactedVertices g.sourceCoordinates
    let cv0 := g.compactedVertices.set n ph.edges
    let cc0 := g.compactedCoordinates.set n ph.coordinates
    let ce0 := if hasReducer then g.compactedEdges.set n ph.reducedEdges
      else g.compactedEdges
    let folded := ph.incomingEdges.keys.foldl
      (phantomRegisterStep g.sourceCoordinates ph n) (cv0, cc0, ce0)
    ({ g with
        compactedVertices := folded.1
        compactedCoordinates := folded.2.1
        compactedEdges := folded.2.2 }, some n)

/-- index.ts `_removePhantom`: delete the `neighbor → n` entries for the
neighbours listed in the phantom's own rows, then delete the phantom's
rows; `compactedEdges` neighbours are only visited when an edge-data
reducer is configured. -/
def removePhantom (g : Graph) (hasReducer : Bool) (n? : Option Key) : Graph :=
  match n? with
  | none => g
  | some n =>
    let cv := (((g.compactedVertices.get n).getD Fmap.nil).keys).foldl
      (fun (m : Fmap (Fmap ℚ)) nb => m.modifyAt nb (fun row => row.erase n))
      g.compactedVertices
    let cc := (((g.compactedCoordinates.get n).getD Fmap.nil).keys).foldl
      (fun (m : Fmap (Fmap (List Position))) nb => m.modifyAt nb (fun row => row.erase n))
      g.compactedCoordinates
    let ce := if hasReducer then
        (((g.compactedEdges.get n).getD Fmap.nil).keys).foldl
          (fun (m : Fmap (Fmap (Option ℚ))) nb => m.modifyAt nb (fun row => row.erase n))
          g.compactedEdges
      else g.compactedEdges
    { g with
        compactedVertices := cv.erase n
        compactedCoordinates := cc.erase n
        compactedEdges := ce.erase n }

/-! ## The path finder facade (src/src/index.ts) -/

/-- types.ts `DirectionBiasContext` / `TransitionGuardContext`. -/
structure TraversalContext where
  cost : ℚ
  fromCoord : Position
  toCoord : Position
  goal : Position
  fromToVector : ℚ × ℚ
  fromGoalVector : ℚ × ℚ
  toGoalVector : ℚ × ℚ
  previous : Option Position := none
  previousToFromVector : Option (ℚ × ℚ) := none
  path : List Key

inductive Algorithm
  | dijkstra
  | astar
deriving DecidableEq

/-- types.ts `PathFinderSearchOptions`; a guard returning `none` renders a
callback that returned `undefined` (void).  `onNodeExpanded` presence is a
flag since its invocations are modelled as the search trace. -/
structure PFSearchOptions where
  directionBias : Option (TraversalContext → ℚ) := none
  transitionGuard : Option (TraversalContext → Option Bool) := none
  algorithm : Algorithm := .dijkstra
  onNodeExpanded : Bool := false

/-- types.ts `Path`. -/
structure PathResult where
  path : List Position
  weight : ℚ
  edgeDatas : Option (List (Option ℚ))
deriving DecidableEq

/-- index.ts `_resolveCompactedCoordinate`. -/
def resolveCompactedCoordinate (g : Graph) (fromK toK : Key) : Option Position :=
  match (g.compactedCoordinates.get fromK).bind (fun row => row.get toK) with
  | none => none
  | some cs => if cs.isEmpty then none else cs.getLast?

def coordX (p : Position) : ℚ := p.getD 0 0

def coordY (p : Position) : ℚ := p.getD 1 0

/-- index.ts `buildTraversalContext` (inside `findPathFromVertexKeys`). -/
def buildTraversalContext (g : Graph) (goalCoordinate : Position) (cost : ℚ)
    (fromK toK : Key) (path : List Key) : Option TraversalContext :=
  let previousKey : Option Key :=
    if 1 < path.length then path.get? (path.length - 2) else none
  let fromCoordinate := match g.sourceCoordinates.get fromK with
    | some c => some c
    | none => previousKey.bind (fun pk => resolveCompactedCoordinate g pk fromK)
  let toCoordinate := match g.sourceCoordinates.get toK with
    | some c => some c
    | none => resolveCompactedCoordinate g fromK toK
  match fromCoordinate, toCoordinate with
  | some fc, some tc =>
    let base : TraversalContext :=
      { cost := cost
        fromCoord := fc
        toCoord := tc
        goal := goalCoordinate
        fromToVector := (coordX tc - coordX fc, coordY tc - coordY fc)
        fromGoalVector :=
          (coordX goalCoordinate - coordX fc, coordY goalCoordinate - coordY fc)
        toGoalVector :=
          (coordX goalCoordinate - coordX tc, coordY goalCoordinate - coordY tc)
        path := path }
    match previousKey with
    | none => some base
    | some pk =>
      match g.sourceCoordinates.get pk with
      | some pc =>
        some { base with
          previous := some pc
          previousToFromVector := some (coordX fc - coordX pc, coordY fc - coordY pc) }
      | none =>
        match resolveCompactedCoordinate g pk fromK with
        | some pc =>
          some { base with
            previous := some pc
            previousToFromVector := some (coordX fc - coordX pc, coordY fc - coordY pc) }
        | none => some base
  | _, _ => none

/-- Consecutive pairs of the vertex-key sequence of a found path. -/
def pairsOf (l : List Key) : List (Key × Key) :=
  l.zip l.tail

/-- The geometry reduction of `findPathFromVertexKeys`: for every index
past the first, append the compacted coordinate list of the edge. -/
def reconstructGeometry (g : Graph) (keys : List Key) : List Position :=
  (pairsOf keys).foldl
    (fun acc pr =>
      acc ++ ((g.compactedCoordinates.get pr.1).bind (fun row => row.get pr.2)).getD [])
    []

/-- The `edgeDatas` reduction of `findPathFromVertexKeys`. -/
def reconstructEdgeDatas (g : Graph) (keys : List Key) : List (Option ℚ) :=
  (pairsOf keys).map
    (fun pr => ((g.compactedEdges.get pr.1).bind (fun row => row.get pr.2)).getD none)

/-- index.ts `findPathFromVertexKeys`.  Returns the path (or no path) paired
with the graph as the call leaves it; `none` means the search fuel ran out.
The option object handed to the searches carries the facade's
`directionBias` and `transitionGuard` wrappers; its `isTurnAllowed` slot is
never populated by this facade. -/
def findPathFromVertexKeys (fuel : Nat) (g : Graph) (hasReducer : Bool)
    (start finish : Key) (opts : PFSearchOptions) (d : Position → Position → ℚ) :
    Option (Option PathResult × Graph) :=
  if (g.vertices.get start).isNone ∨ (g.vertices.get finish).isNone then
    some (none, g)
  else
    let c1 := createPhantom fuel g hasReducer start
    let c2 := createPhantom fuel c1.1 hasReducer finish
    let g2 := c2.1
    let goalCoordinate := g2.sourceCoordinates.get finish
    let db : Option (ℚ → Key → Key → List Key → ℚ) :=
      match opts.directionBias, goalCoordinate with
      | some f, some gc =>
        some (fun cost fromK toK path =>
          match buildTraversalContext g2 gc cost fromK toK path with
          | none => 0
          | some ctx => f ctx)
      | _, _ => none
    let tg : Option (ℚ → Key → Key → List Key → Bool) :=
      match opts.transitionGuard, goalCoordinate with
      | some f, some gc =>
        some (fun cost fromK toK path =>
          match buildTraversalContext g2 gc cost fromK toK path with
          | none => true
          | some ctx => decide (f ctx ≠ some false))
      | _, _ => none
    let shared : SharedSearchOptions :=
      { directionBias := db
        transitionGuard := tg
        isTurnAllowed := none
        onNodeExpanded := opts.onNodeExpanded }
    let searchRes := match opts.algorithm with
      | .astar =>
        findPathAStar fuel g2.compactedVertices start finish shared
          (some g2.sourceCoordinates) d
      | .dijkstra => findPathDijkstra fuel g2.compactedVertices start finish shared
    match searchRes with
    | none => none
    | some res =>
      let result : Option PathResult := res.1.map (fun wp =>
        { path := reconstructGeometry g2 wp.2 ++ [(g2.sourceCoordinates.get finish).getD []]
          weight := wp.1
          edgeDatas := if hasReducer then some (reconstructEdgeDatas g2 wp.2) else none })
      some (result, removePhantom (removePhantom g2 hasReducer c1.2) hasReducer c2.2)

/-- The scan of `_resolveVertexKey`: all vertex keys whose rounded source
coordinate has the queried first two components. -/
def coordinateMatches (g : Graph) (tolerance : ℚ) (coordinate : Position) : List Key :=
  g.sourceCoordinates.filterMap
    (fun p =>
      let rs := roundCoord p.2 tolerance
      if rs.getD 0 0 = coordinate.getD 0 0 ∧ rs.getD 1 0 = coordinate.getD 1 0 then
        some p.1
      else none)

/-- index.ts `_resolveVertexKey`: prefer the direct key; otherwise scan the
source coordinates, succeeding on a unique match, failing on an ambiguous
one, and falling back to the (non-vertex) direct key otherwise. -/
def resolveVertexKey (g : Graph) (keyFn : Position → Key) (tolerance : ℚ)
    (coordinate : Position) : Except String Key :=
  let directKey := keyFn coordinate
  if (g.vertices.get directKey).isSome then .ok directKey
  else
    match coordinateMatches g tolerance coordinate with
    | [k] => .ok k
    | [] => .ok directKey
    | _ => .error "Ambiguous vertex coordinate"

/-- index.ts `findPath`: round and resolve both endpoints (the custom key
function and the tolerance come from the facade options), bail out with no
path when either key is not a raw vertex, then search. -/
def findPath (fuel : Nat) (g : Graph) (hasReducer : Bool) (keyFn : Position → Key)
    (tolerance : ℚ) (a b : Position) (opts : PFSearchOptions)
    (d : Position → Position → ℚ) :
    Except String (Option (Option PathResult × Graph)) := do
  let start ← resolveVertexKey g keyFn tolerance (roundCoord a tolerance)
  let finish ← resolveVertexKey g keyFn tolerance (roundCoord b tolerance)
  if (g.vertices.get start).isNone ∨ (g.vertices.get finish).isNone then
    pure (some (none, g))
  else
    pure (findPathFromVertexKeys fuel g hasReducer start finish opts d)

/-! ## findPathAsync dispatch (src/src/index.ts + worker) -/

/-- The environmental facts `_ensureWorkerPool` probes: whether the
worker-pool module resolves and whether worker threads are available. -/
structure WorkerEnv where
  moduleAvailable : Bool
  workerThreadsAvailable : Bool

/-- The facade options consulted by the async path: the optional custom key
function, the optional tolerance, and `worker.enabled`. -/
structure PFOptions where
  key : Option (Position → Key) := none
  tolerance : Option ℚ := none
  workerEnabled : Bool := false

/-- index.ts `_hasWorkerSearchCallbacks`. -/
def hasWorkerSearchCallbacks (opts : PFSearchOptions) : Bool :=
  opts.directionBias.isSome || opts.transitionGuard.isSome || opts.onNodeExpanded

/-- index.ts `_ensureWorkerPool`, reduced to whether a pool is obtained:
it requires `worker.enabled`, no edge-data reducer on the facade, a
resolvable worker-pool module and available worker threads.  The facade's
custom key function is not consulted. -/
def ensureWorkerPool (env : WorkerEnv) (workerEnabled hasReducer : Bool) : Bool :=
  workerEnabled && !hasReducer && env.moduleAvailable && env.workerThreadsAvailable

/-- `findPathAsync` dispatches to the pool iff a pool is obtained and the
request carries no search callbacks. -/
def findPathAsyncUsesWorker (env : WorkerEnv) (pfo : PFOptions) (hasReducer : Bool)
    (so : PFSearchOptions) : Bool :=
  ensureWorkerPool env pfo.workerEnabled hasReducer && !hasWorkerSearchCallbacks so

/-- index.ts `_toWorkerSearchOptions`: only the algorithm crosses the wire. -/
def toWorkerSearchOptions (so : PFSearchOptions) : PFSearchOptions :=
  { algorithm := so.algorithm }

/-- index.ts `findPathAsync`: fall back to the synchronous `findPath` when
no pool is obtained or callbacks are present; otherwise resolve the
endpoints locally and run the serialized request on the worker's copy of
the graph (worker/pathfinder-worker.ts calls `findPathFromVertexKeys`), so
the caller's graph is returned unchanged. -/
def findPathAsyncModel (fuel : Nat) (env : WorkerEnv) (g : Graph) (hasReducer : Bool)
    (pfo : PFOptions) (defaultKeyF : Position → Key) (a b : Position)
    (so : PFSearchOptions) (d : Position → Position → ℚ) :
    Except String (Option (Option PathResult × Graph)) :=
  let keyFn := pfo.key.getD defaultKeyF
  let tolerance := pfo.tolerance.getD (1 / 100000)
  if findPathAsyncUsesWorker env pfo hasReducer so then do
    let start ← resolveVertexKey g keyFn tolerance (roundCoord a tolerance)
    let finish ← resolveVertexKey g keyFn tolerance (roundCoord b tolerance)
    if (g.vertices.get start).isNone ∨ (g.vertices.get finish).isNone then
      pure (some (none, g))
    else
      match findPathFromVertexKeys fuel g hasReducer start finish
        (toWorkerSearchOptions so) d with
      | none => pure none
      | some res => pure (some (res.1, g))
  else
    findPath fuel g hasReducer keyFn tolerance a b so d

/-! ## Path predicates -/

def edgeWeight (graph : Fmap (Fmap ℚ)) (u v : Key) : Option ℚ :=
  (graph.get u).bind (fun row => row.get v)

/-- Sum of the stored edge weights along consecutive key pairs. -/
def pathCost (graph : Fmap (Fmap ℚ)) (keys : List Key) : ℚ :=
  (pairsOf keys).foldl (fun a pr => a + (edgeWeight graph pr.1 pr.2).getD 0) 0

/-- Every consecutive key pair is an edge of the graph. -/
def isChain (graph : Fmap (Fmap ℚ)) (keys : List Key) : Bool :=
  (pairsOf keys).all (fun pr => (edgeWeight graph pr.1 pr.2).isSome)

/-! ## Concrete fixtures

Each fixture is the preprocessed graph of a small GeoJSON network, written
out directly (the topology builder and compactor run once per facade and
are outside the claims in scope; the compacted fields follow the coordinate
convention fixed by the repository's tests). -/

/-- A trivially constant stand-in for the injected distance metric, used
where the heuristic plays no role. -/
def dZero : Position → Position → ℚ := fun _ _ => 0

/-- Network `[[0,0],[1,0]]`, `[[1,0],[0,1]]`, `[[1,0],[2,0]]` — all four
vertices are junctions, so the compacted graph equals the raw graph. -/
def gCross : Graph :=
  { vertices :=
      [("s", [("m", 1)]),
       ("m", [("s", 1), ("t", 1), ("x", 1)]),
       ("t", [("m", 1)]),
       ("x", [("m", 1)])]
    edgeData := Fmap.nil
    sourceCoordinates := [("s", [0, 0]), ("m", [1, 0]), ("t", [0, 1]), ("x", [2, 0])]
    compactedVertices :=
      [("s", [("m", 1)]),
       ("m", [("s", 1), ("t", 1), ("x", 1)]),
       ("t", [("m", 1)]),
       ("x", [("m", 1)])]
    compactedCoordinates :=
      [("s", [("m", [[0, 0]])]),
       ("m", [("s", [[1, 0]]), ("t", [[1, 0]]), ("x", [[1, 0]])]),
       ("t", [("m", [[0, 1]])]),
       ("x", [("m", [[2, 0]])])]
    compactedEdges := Fmap.nil }

/-- One-way chain `a → n → b` (weight function returning `{forward}` only):
the junctions are the endpoints, `n` is interior, and the phantom injected
at `n` has incoming neighbour `a` but outgoing neighbour `b`. -/
def gOneWay : Graph :=
  { vertices := [("a", [("n", 1)]), ("n", [("b", 1)]), ("b", Fmap.nil)]
    edgeData := Fmap.nil
    sourceCoordinates := [("a", [0, 0]), ("n", [1, 0]), ("b", [2, 0])]
    compactedVertices := [("a", [("b", 2)]), ("b", Fmap.nil)]
    compactedCoordinates := [("a", [("b", [[0, 0], [1, 0]])]), ("b", Fmap.nil)]
    compactedEdges := Fmap.nil }

/-- Two-way chain `a – x – n – b`; phantom injection at the interior vertex
`n` registers incoming edges on both junctions. -/
def gChain4 : Graph :=
  { vertices :=
      [("a", [("x", 1)]),
       ("x", [("a", 1), ("n", 1)]),
       ("n", [("x", 1), ("b", 1)]),
       ("b", [("n", 1)])]
    edgeData := Fmap.nil
    sourceCoordinates := [("a", [0, 0]), ("x", [1, 0]), ("n", [2, 0]), ("b", [3, 0])]
    compactedVertices := [("a", [("b", 3)]), ("b", [("a", 3)])]
    compactedCoordinates :=
      [("a", [("b", [[0, 0], [1, 0], [2, 0]])]),
       ("b", [("a", [[3, 0], [2, 0], [1, 0]])])]
    compactedEdges := Fmap.nil }

/-- Compacted graph on which a stale queue entry for `n` is popped after a
better route through `m` has already expanded `n`. -/
def dStaleGraph : Fmap (Fmap ℚ) :=
  [("s", [("n", 5), ("m", 1)]),
   ("m", [("n", 2)]),
   ("n", [("z", 10)]),
   ("z", Fmap.nil)]

/-- Compacted graph with user weights far below the geographic scale: the
direct edge `s → t` costs 3, the detour via `a` costs 2. -/
def gHeur : Fmap (Fmap ℚ) :=
  [("s", [("a", 1), ("t", 3)]), ("a", [("t", 1)]), ("t", Fmap.nil)]

/-- Source coordinates of `gHeur`: `a` sits at the pole, far from the goal. -/
def heurCoords : Fmap Position :=
  [("s", [0, 0]), ("a", [0, 90]), ("t", [1 / 1000, 0])]

/-- Injected great-circle distance (kilometres) between the three fixture
coordinates, matching the turf values to within rounding: the pole is about
10007 km from the goal and the start about 0.11 km. -/
def heurDist : Position → Position → ℚ := fun p q =>
  if p = q then 0
  else if (p = [0, 90] ∧ q = [1 / 1000, 0]) ∨ (p = [1 / 1000, 0] ∧ q = [0, 90]) then 10007
  else if (p = [0, 0] ∧ q = [1 / 1000, 0]) ∨ (p = [1 / 1000, 0] ∧ q = [0, 0]) then 1 / 9
  else 10007

/-- A transition guard vetoing every candidate transition. -/
def guardAllFalse : PFSearchOptions :=
  { transitionGuard := some (fun _ => some false) }

/-- A direction bias adding 7 to every candidate transition. -/
def biasSeven : PFSearchOptions :=
  { directionBias := some (fun _ => 7) }

/-- C1.  Searching `gOneWay` from the interior vertex `n` injects a phantom
whose incoming neighbour set is `a` while its outgoing neighbour set is
`b`; `_removePhantom` only visits the outgoing side, so after the call the
compacted maps still hold `a → n` entries (and a `compactedEdges` row
created by the incoming registration): the compacted graph is not restored. -/
theorem c1_phantom_residual_eval :
    ((findPathFromVertexKeys 10 gOneWay false "n" "b" {} dZero).map
        (fun p =>
          (((p.2.compactedVertices.get "a").getD Fmap.nil).get "n",
            ((p.2.compactedCoordinates.get "a").getD Fmap.nil).get "n",
            p.2.compactedEdges,
            decide (p.2 = gOneWay)))) =
      some (some 1, some [[0, 0]], [("a", [("n", none)])], false) := by
  with_unfolding_all rfl

/-- C2.  With a transition guard that vetoes every transition, `findPath`
still returns the route `s → m → t` and behaves exactly as if no guard had
been supplied: the facade stores the wrapped guard in a slot neither search
reads (`dijkstra.ts` consults `isTurnAllowed`, the a-star accepts no guard
at all), contradicting the documented contract of `transitionGuard`. -/
theorem c2_guard_ignored_eval :
    findPathFromVertexKeys 10 gCross false "s" "t" guardAllFalse dZero =
        findPathFromVertexKeys 10 gCross false "s" "t" {} dZero ∧
      (findPathFromVertexKeys 10 gCross false "s" "t" guardAllFalse dZero).map
          Prod.fst =
        some (some { path := [[0, 0], [1, 0], [0, 1]], weight := 2, edgeDatas := none }) := by
  exact ⟨by with_unfolding_all rfl, by with_unfolding_all rfl⟩

/-- C3 counterexample.  On `dStaleGraph` the Dijkstra search pops a stale
entry for `n` (cost 5 after `n` was already expanded at cost 3), expands it
and reports it through `onNodeExpanded`, so the callback fires twice for
`n` — there is no lazy-deletion discard in `dijkstra.ts`. -/
theorem c3_counterexample :
    findPathDijkstra 10 dStaleGraph "s" "z" {} =
        some (some (13, ["s", "m", "n", "z"]),
          [("s", 0), ("m", 1), ("n", 3), ("n", 5), ("z", 13)]) ∧
      (findPathDijkstra 10 dStaleGraph "s" "z" {}).map
          (fun r => r.2.countP (fun e => decide (e.1 = "n"))) =
        some 2 := by
  exact ⟨by with_unfolding_all rfl, by with_unfolding_all rfl⟩

/-- C4 counterexample.  On `gHeur` with the coordinates the facade always
passes, the injected great-circle heuristic (kilometres) dwarfs the user
weights and overestimates: A* pops the goal via the direct edge of weight
3 before the cheaper detour of weight 2 that Dijkstra finds. -/
theorem c4_counterexample :
    findPathDijkstra 10 gHeur "s" "t" {} =
        some (some (2, ["s", "a", "t"]), [("s", 0), ("a", 1), ("t", 2)]) ∧
      findPathAStar 10 gHeur "s" "t" {} (some heurCoords) heurDist =
        some (some (3, ["s", "t"]), [("s", 0), ("t", 3)]) ∧
      (2 : ℚ) ≠ 3 := by
  refine ⟨by with_unfolding_all rfl, by with_unfolding_all rfl, ?_⟩
  exact of_decide_eq_true (by with_unfolding_all rfl)

/-- C5 counterexample.  The phantom injected at `n` in `gChain4` registers
the incoming edge `(a, n)` with stored coordinate list `[[0,0],[1,0]]`:
it begins with `a`'s own coordinate and does not end with `n`'s coordinate,
instead of the claimed `[[1,0],[2,0]]` (intermediates excluding `a`,
including `n` last). -/
theorem c5_counterexample :
    ((((createPhantom 10 gChain4 false "n").1.compactedCoordinates.get "a").getD
          Fmap.nil).get "n") = some [[0, 0], [1, 0]] ∧
      gChain4.sourceCoordinates.get "a" = some [0, 0] ∧
      gChain4.sourceCoordinates.get "n" = some [2, 0] ∧
      (some [[0, 0], [1, 0]] : Option (List Position)) ≠ some [[1, 0], [2, 0]] := by
  refine ⟨by with_unfolding_all rfl, by with_unfolding_all rfl, by with_unfolding_all rfl, ?_⟩
  exact of_decide_eq_true (by with_unfolding_all rfl)

/-- C6 counterexample.  With a direction bias of 7 per transition the
returned weight is 16 while the compacted edge weights along the returned
key sequence `s, m, t` sum to 2. -/
theorem c6_counterexample :
    (findPathFromVertexKeys 10 gCross false "s" "t" biasSeven dZero).map Prod.fst =
        some (some { path := [[0, 0], [1, 0], [0, 1]], weight := 16, edgeDatas := none }) ∧
      pathCost gCross.compactedVertices ["s", "m", "t"] = 2 ∧
      (16 : ℚ) ≠ 2 := by
  refine ⟨by with_unfolding_all rfl, by with_unfolding_all rfl, ?_⟩
  exact of_decide_eq_true (by with_unfolding_all rfl)

/-- C8 counterexample.  With `worker.enabled`, no reducer, an available
worker module and no request callbacks, a facade configured with a custom
key function still dispatches to the pool: `findPathAsync` never consults
`options.key`, contrary to the claimed eligibility condition. -/
theorem c8_counterexample :
    findPathAsyncUsesWorker ⟨true, true⟩
        { key := some (fun _ => "z"), workerEnabled := true } false {} = true ∧
      (PFOptions.key { key := some (fun _ => "z"), workerEnabled := true }).isSome = true := by
  exact ⟨by with_unfolding_all rfl, by with_unfolding_all rfl⟩

/-! ## C9: rounding is idempotent -/

/-- C9.  `roundCoord` is idempotent for every coordinate and every positive
tolerance: re-rounding an already rounded coordinate changes nothing, and
the components past the first two are passed through untouched both times. -/
theorem c9_roundCoord_idempotent (c : Position) (t : ℚ) (ht : 0 < t) :
    roundCoord (roundCoord c t) t = roundCoord c t := by
  have htne : t ≠ 0 := ne_of_gt ht
  show roundCoord
      ((jround (c.getD 0 0 / t) : ℚ) * t :: (jround (c.getD 1 0 / t) : ℚ) * t :: c.drop 2) t =
    roundCoord c t
  unfold roundCoord
  simp only [List.getD_cons_zero, List.getD_cons_succ, List.drop_succ_cons]
  rw [mul_div_cancel_right₀ _ htne, mul_div_cancel_right₀ _ htne]
  rw [jround_intCast, jround_intCast, List.drop_zero]

theorem c9_roundCoord_idempotent_witness :
    (0 : ℚ) < 1 / 2 ∧
      roundCoord (roundCoord [7 / 3, 5 / 4, 9] (1 / 2)) (1 / 2) =
        roundCoord [7 / 3, 5 / 4, 9] (1 / 2) :=
  ⟨by norm_num, c9_roundCoord_idempotent [7 / 3, 5 / 4, 9] (1 / 2) (by norm_num)⟩

/-! ## C7: endpoint resolution -/

/-- C7.  When the direct key of a query point is not a raw vertex: a unique
coordinate match is used; two or more matches make resolution throw the
ambiguous-coordinate error, and that is the only way it throws; and with no
match at all, `findPath` on that endpoint returns no path rather than
throwing (unless resolving the other endpoint throws its own
ambiguous-coordinate error). -/
theorem c7_endpoint_resolution (g : Graph) (keyFn : Position → Key) (tol : ℚ)
    (a b : Position)
    (hdirect : (g.vertices.get (keyFn (roundCoord a tol))).isNone = true) :
    (∀ k, coordinateMatches g tol (roundCoord a tol) = [k] →
        resolveVertexKey g keyFn tol (roundCoord a tol) = .ok k) ∧
      (∀ k1 k2 rest, coordinateMatches g tol (roundCoord a tol) = k1 :: k2 :: rest →
        resolveVertexKey g keyFn tol (roundCoord a tol) =
          .error "Ambiguous vertex coordinate") ∧
      (∀ e, resolveVertexKey g keyFn tol (roundCoord a tol) = .error e →
        2 ≤ (coordinateMatches g tol (roundCoord a tol)).length) ∧
      (coordinateMatches g tol (roundCoord a tol) = [] →
        ∀ fuel hasReducer opts d,
          (∃ e, findPath fuel g hasReducer keyFn tol a b opts d = .error e) ∨
            findPath fuel g hasReducer keyFn tol a b opts d = .ok (some (none, g))) := by
  have hif : (g.vertices.get (keyFn (roundCoord a tol))).isSome = false := by
    cases hget : g.vertices.get (keyFn (roundCoord a tol)) with
    | none => rfl
    | some v => rw [hget] at hdirect; simp at hdirect
  have hres : resolveVertexKey g keyFn tol (roundCoord a tol) =
      match coordinateMatches g tol (roundCoord a tol) with
      | [k] => .ok k
      | [] => .ok (keyFn (roundCoord a tol))
      | _ => .error "Ambiguous vertex coordinate" := by
    unfold resolveVertexKey
    simp only [hif, Bool.false_eq_true, if_false]
  refine ⟨?_, ?_, ?_, ?_⟩
  · intro k hm
    rw [hres, hm]
  · intro k1 k2 rest hm
    rw [hres, hm]
  · intro e herr
    rw [hres] at herr
    match hm : coordinateMatches g tol (roundCoord a tol) with
    | [] => rw [hm] at herr; exact absurd herr (by simp)
    | [k] => rw [hm] at herr; exact absurd herr (by simp)
    | k1 :: k2 :: rest =>
      simp only [List.length_cons]
      omega
  · intro hm fuel hasReducer opts d
    have hstart : resolveVertexKey g keyFn tol (roundCoord a tol) =
        .ok (keyFn (roundCoord a tol)) := by rw [hres, hm]
    unfold findPath
    rw [hstart]
    cases hb : resolveVertexKey g keyFn tol (roundCoord b tol) with
    | error e =>
      refine Or.inl ⟨e, ?_⟩
      simp [bind, Except.bind]
    | ok finish =>
      refine Or.inr ?_
      have hcond : ((g.vertices.get (keyFn (roundCoord a tol))).isNone ∨
          (g.vertices.get finish).isNone) := Or.inl (by simp [hdirect])
      simp only [bind, Except.bind]
      rw [if_pos hcond]
      rfl

/-- A key function sending the probe point to a fresh key and everything
else onto the `gCross` vertices. -/
def c7KeyFn : Position → Key := fun p => if p = ([9, 9] : Position) then "q" else "s"

theorem c7_endpoint_resolution_witness :
    (∃ e, findPath 5 gCross false c7KeyFn 1 [9, 9] [0, 1] {} dZero = .error e) ∨
      findPath 5 gCross false c7KeyFn 1 [9, 9] [0, 1] {} dZero = .ok (some (none, gCross)) :=
  (c7_endpoint_resolution gCross c7KeyFn 1 [9, 9] [0, 1]
      (by with_unfolding_all rfl)).2.2.2 (by with_unfolding_all rfl) 5 false {} dZero

/-! ## C10: identical endpoints -/

theorem createPhantom_sourceCoordinates (fuel : Nat) (g : Graph) (r : Bool) (n : Key) :
    (createPhantom fuel g r n).1.sourceCoordinates = g.sourceCoordinates := by
  unfold createPhantom
  by_cases h : (g.compactedVertices.get n).isSome = true
  · rw [if_pos h]
  · rw [if_neg h]

theorem createPhantom_vertices (fuel : Nat) (g : Graph) (r : Bool) (n : Key) :
    (createPhantom fuel g r n).1.vertices = g.vertices := by
  unfold createPhantom
  by_cases h : (g.compactedVertices.get n).isSome = true
  · rw [if_pos h]
  · rw [if_neg h]

theorem findPathDijkstra_self (fuel : Nat) (graph : Fmap (Fmap ℚ)) (k : Key)
    (shared : SharedSearchOptions) :
    findPathDijkstra (fuel + 1) graph k k shared = some (some (0, [k]), [(k, 0)]) := by
  unfold findPathDijkstra dijkstraLoop
  simp

theorem findPathAStar_self (fuel : Nat) (graph : Fmap (Fmap ℚ)) (k : Key)
    (shared : SharedSearchOptions) (coords : Option (Fmap Position))
    (d : Position → Position → ℚ) :
    findPathAStar (fuel + 1) graph k k shared coords d =
      some (some (0, [k]), [(k, 0)]) := by
  unfold findPathAStar astarLoop
  simp [Fmap.get]

/-- C10.  When both endpoints of `findPath` resolve to the same raw vertex
`k`, the call succeeds (no throw, not absent) with weight 0, geometry equal
to the single stored source coordinate of `k`, and an empty `edgeDatas`
list exactly when an edge-data reducer is configured. -/
theorem c10_trivial_path (fuel : Nat) (g : Graph) (hasReducer : Bool)
    (keyFn : Position → Key) (tol : ℚ) (a b : Position) (opts : PFSearchOptions)
    (d : Position → Position → ℚ) (k : Key) (c : Position)
    (hra : resolveVertexKey g keyFn tol (roundCoord a tol) = .ok k)
    (hrb : resolveVertexKey g keyFn tol (roundCoord b tol) = .ok k)
    (hv : (g.vertices.get k).isSome = true)
    (hc : g.sourceCoordinates.get k = some c) :
    (findPath (fuel + 1) g hasReducer keyFn tol a b opts d).map
        (fun o => o.map Prod.fst) =
      .ok (some (some
        { path := [c]
          weight := 0
          edgeDatas := if hasReducer then some [] else none })) := by
  have hvne : (g.vertices.get k).isNone = false := by
    cases hget : g.vertices.get k with
    | none => rw [hget] at hv; simp at hv
    | some v => rfl
  unfold findPath
  rw [hra, hrb]
  simp only [bind, Except.bind]
  have hcond : ¬ ((g.vertices.get k).isNone ∨ (g.vertices.get k).isNone) := by
    intro hor
    cases hor with
    | inl h => rw [hvne] at h; exact absurd h (by simp)
    | inr h => rw [hvne] at h; exact absurd h (by simp)
  rw [if_neg hcond]
  cases halg : opts.algorithm with
  | dijkstra =>
    simp only [findPathFromVertexKeys, if_neg hcond, halg, findPathDijkstra_self,
      createPhantom_sourceCoordinates, Except.map, Option.map_some, pure]
    simp [reconstructGeometry, reconstructEdgeDatas, pairsOf, hc,
      createPhantom_sourceCoordinates, Except.pure]
  | astar =>
    simp only [findPathFromVertexKeys, if_neg hcond, halg, findPathAStar_self,
      createPhantom_sourceCoordinates, Except.map, Option.map_some, pure]
    simp [reconstructGeometry, reconstructEdgeDatas, pairsOf, hc,
      createPhantom_sourceCoordinates, Except.pure]

/-- A key function for the witness: both probe points land on vertex `m`. -/
def c10KeyFn : Position → Key := fun p => if p = ([1, 0] : Position) then "m" else "q"

theorem c10_trivial_path_witness :
    (findPath 6 gCross false c10KeyFn 1 [1, 0] [1, 0] {} dZero).map
        (fun o => o.map Prod.fst) =
      .ok (some (some
        { path := [[1, 0]]
          weight := 0
          edgeDatas := if false then some [] else none })) :=
  c10_trivial_path 5 gCross false c10KeyFn 1 [1, 0] [1, 0] {} dZero "m" [1, 0]
    (by with_unfolding_all rfl) (by with_unfolding_all rfl)
    (by with_unfolding_all rfl) (by with_unfolding_all rfl)

/-! ## C8: findPathAsync dispatch -/

/-- C8 (amended).  `findPathAsync` dispatches to the worker pool iff
`worker.enabled` is set, no edge-data reducer is configured, the worker
module and worker threads are available, and the request supplies none of
`directionBias`, `transitionGuard`, `onNodeExpanded`; a custom key function
plays no role in eligibility (endpoint resolution happens on the caller's
thread).  On ineligibility the call is exactly the synchronous `findPath`;
on dispatch the worker round-trip returns the same path result as
`findPath` would. -/
theorem c8_worker_dispatch (fuel : Nat) (env : WorkerEnv) (g : Graph)
    (hasReducer : Bool) (pfo : PFOptions) (dk : Position → Key) (a b : Position)
    (so : PFSearchOptions) (d : Position → Position → ℚ) :
    (findPathAsyncUsesWorker env pfo hasReducer so =
      (pfo.workerEnabled && !hasReducer && env.moduleAvailable &&
        env.workerThreadsAvailable &&
        !(so.directionBias.isSome || so.transitionGuard.isSome || so.onNodeExpanded))) ∧
      (findPathAsyncUsesWorker env pfo hasReducer so = false →
        findPathAsyncModel fuel env g hasReducer pfo dk a b so d =
          findPath fuel g hasReducer (pfo.key.getD dk) (pfo.tolerance.getD (1 / 100000))
            a b so d) ∧
      (findPathAsyncUsesWorker env pfo hasReducer so = true →
        (findPathAsyncModel fuel env g hasReducer pfo dk a b so d).map
            (fun o => o.map Prod.fst) =
          (findPath fuel g hasReducer (pfo.key.getD dk) (pfo.tolerance.getD (1 / 100000))
              a b so d).map (fun o => o.map Prod.fst)) := by
  refine ⟨?_, ?_, ?_⟩
  · unfold findPathAsyncUsesWorker ensureWorkerPool hasWorkerSearchCallbacks
    cases pfo.workerEnabled <;> cases hasReducer <;> cases env.moduleAvailable <;>
      cases env.workerThreadsAvailable <;>
      cases so.directionBias.isSome <;> cases so.transitionGuard.isSome <;>
      cases so.onNodeExpanded <;> rfl
  · intro hno
    unfold findPathAsyncModel
    rw [hno]
    simp
  · intro hyes
    have hcb : hasWorkerSearchCallbacks so = false := by
      unfold findPathAsyncUsesWorker at hyes
      cases hw : hasWorkerSearchCallbacks so with
      | false => rfl
      | true => rw [hw] at hyes; simp at hyes
    have hdb : so.directionBias = none := by
      unfold hasWorkerSearchCallbacks at hcb
      cases hd : so.directionBias with
      | none => rfl
      | some f => rw [hd] at hcb; simp at hcb
    have htg : so.transitionGuard = none := by
      unfold hasWorkerSearchCallbacks at hcb
      cases hd : so.transitionGuard with
      | none => rfl
      | some f => rw [hd] at hcb; simp at hcb
    have hne : so.onNodeExpanded = false := by
      unfold hasWorkerSearchCallbacks at hcb
      cases hd : so.onNodeExpanded
      · rfl
      · rw [hd] at hcb; simp at hcb
    have hso : toWorkerSearchOptions so = so := by
      unfold toWorkerSearchOptions
      cases so with
      | mk db tg alg one =>
        simp only at hdb htg hne
        rw [hdb, htg, hne]
    unfold findPathAsyncModel findPath
    rw [hyes]
    simp only [if_pos rfl, hso]
    cases ha : resolveVertexKey g (pfo.key.getD dk) (pfo.tolerance.getD (1 / 100000))
        (roundCoord a (pfo.tolerance.getD (1 / 100000))) with
    | error e => simp [bind, Except.bind, Except.map]
    | ok start =>
      cases hb : resolveVertexKey g (pfo.key.getD dk) (pfo.tolerance.getD (1 / 100000))
          (roundCoord b (pfo.tolerance.getD (1 / 100000))) with
      | error e => simp [bind, Except.bind, Except.map]
      | ok finish =>
        simp only [bind, Except.bind]
        by_cases hmiss :
            ((g.vertices.get start).isNone ∨ (g.vertices.get finish).isNone)
        · rw [if_pos hmiss, if_pos hmiss]
          simp
        · rw [if_neg hmiss, if_neg hmiss]
          cases hf : findPathFromVertexKeys fuel g hasReducer start finish so d with
          | none => simp [pure, Except.pure, Except.map]
          | some res => simp [pure, Except.pure, Except.map]

theorem c8_worker_dispatch_witness :
    (findPathAsyncModel 6 ⟨true, true⟩ gCross false
          { key := some c10KeyFn, workerEnabled := true } c10KeyFn [1, 0] [0, 1] {}
          dZero).map (fun o => o.map Prod.fst) =
      (findPath 6 gCross false
          ((PFOptions.key { key := some c10KeyFn, workerEnabled := true }).getD c10KeyFn)
          ((PFOptions.tolerance { key := some c10KeyFn, workerEnabled := true }).getD
            (1 / 100000))
          [1, 0] [0, 1] {} dZero).map (fun o => o.map Prod.fst) :=
  (c8_worker_dispatch 6 ⟨true, true⟩ gCross false
      { key := some c10KeyFn, workerEnabled := true } c10KeyFn [1, 0] [0, 1] {}
      dZero).2.2 (by with_unfolding_all rfl)

/-! ## Map lemmas -/

theorem Fmap.set_cons_eq {α : Type} (p : Key × α) (rest : List (Key × α)) (v : α) :
    Fmap.set (p :: rest) p.1 v = (p.1, v) :: rest := by
  simp [Fmap.set]

theorem Fmap.set_cons_ne {α : Type} (p : Key × α) (rest : List (Key × α)) (k : Key)
    (v : α) (h : p.1 ≠ k) : Fmap.set (p :: rest) k v = p :: Fmap.set rest k v := by
  simp [Fmap.set, h]

theorem Fmap.get_cons {α : Type} (p : Key × α) (rest : List (Key × α)) (k : Key) :
    Fmap.get (p :: rest) k = if p.1 = k then some p.2 else Fmap.get rest k := rfl

theorem Fmap.get_set_self {α : Type} (m : Fmap α) (k : Key) (v : α) :
    (m.set k v).get k = some v := by
  induction m with
  | nil => simp [Fmap.set, Fmap.get]
  | cons p rest ih =>
    by_cases h : p.1 = k
    · subst h
      rw [Fmap.set_cons_eq, Fmap.get_cons, if_pos rfl]
    · rw [Fmap.set_cons_ne _ _ _ _ h, Fmap.get_cons, if_neg h, ih]

theorem Fmap.get_set_ne {α : Type} (m : Fmap α) (k : Key) (v : α) (k2 : Key)
    (h : k2 ≠ k) : (m.set k v).get k2 = m.get k2 := by
  induction m with
  | nil => simp [Fmap.set, Fmap.get, Ne.symm h]
  | cons p rest ih =>
    by_cases hp : p.1 = k
    · subst hp
      rw [Fmap.set_cons_eq, Fmap.get_cons, Fmap.get_cons, if_neg (Ne.symm h),
        if_neg (Ne.symm h)]
    · rw [Fmap.set_cons_ne _ _ _ _ hp, Fmap.get_cons, Fmap.get_cons, ih]

theorem Fmap.mem_keys_set {α : Type} (m : Fmap α) (k : Key) (v : α) (x : Key) :
    x ∈ (m.set k v).keys ↔ x ∈ m.keys ∨ x = k := by
  induction m with
  | nil => simp [Fmap.set, Fmap.keys]
  | cons p rest ih =>
    have ih2 : x ∈ List.map Prod.fst (Fmap.set rest k v) ↔
        x ∈ List.map Prod.fst rest ∨ x = k := ih
    by_cases hp : p.1 = k
    · subst hp
      rw [Fmap.set_cons_eq]
      simp only [Fmap.keys, List.map_cons, List.mem_cons]
      tauto
    · rw [Fmap.set_cons_ne _ _ _ _ hp]
      simp only [Fmap.keys, List.map_cons, List.mem_cons]
      rw [ih2]
      tauto

theorem Fmap.nodup_keys_set {α : Type} (m : Fmap α) (k : Key) (v : α)
    (h : m.keys.Nodup) : (m.set k v).keys.Nodup := by
  induction m with
  | nil => simp [Fmap.set, Fmap.keys]
  | cons p rest ih =>
    simp only [Fmap.keys, List.map_cons, List.nodup_cons] at h
    by_cases hp : p.1 = k
    · subst hp
      rw [Fmap.set_cons_eq]
      simp only [Fmap.keys, List.map_cons, List.nodup_cons]
      exact h
    · rw [Fmap.set_cons_ne _ _ _ _ hp]
      simp only [Fmap.keys, List.map_cons, List.nodup_cons]
      refine ⟨?_, ih h.2⟩
      intro hmem
      have hmem2 : p.1 ∈ (Fmap.set rest k v).keys := hmem
      rw [Fmap.mem_keys_set] at hmem2
      cases hmem2 with
      | inl hmem2 => exact h.1 hmem2
      | inr hmem2 => exact hp hmem2

/-! ## C5: compacted edge geometry of phantoms -/

theorem phantomRegister_get_not_mem (src : Fmap Position) (ph : CompactedNode)
    (n : Key) (L : List Key) (acc : Fmap (Fmap ℚ) × Fmap (Fmap (List Position)) ×
      Fmap (Fmap (Option ℚ))) (k : Key) (hk : k ∉ L) :
    ((L.foldl (phantomRegisterStep src ph n) acc).2.1).get k = acc.2.1.get k := by
  induction L generalizing acc with
  | nil => rfl
  | cons x xs ih =>
    have hx : k ≠ x := fun h => hk (h ▸ List.mem_cons_self x xs)
    have hxs : k ∉ xs := fun h => hk (List.mem_cons_of_mem x h)
    rw [List.foldl_cons, ih _ hxs]
    show ((phantomRegisterStep src ph n acc x).2.1).get k = acc.2.1.get k
    unfold phantomRegisterStep
    exact Fmap.get_set_ne _ _ _ _ hx

theorem phantomRegister_get_mem (src : Fmap Position) (ph : CompactedNode)
    (n : Key) (L : List Key) (acc : Fmap (Fmap ℚ) × Fmap (Fmap (List Position)) ×
      Fmap (Fmap (Option ℚ))) (nb : Key) (hnodup : L.Nodup) (hmem : nb ∈ L) :
    ((L.foldl (phantomRegisterStep src ph n) acc).2.1).get nb =
      some (((acc.2.1.get nb).getD Fmap.nil).set n
        ((src.get nb).getD [] ::
          (((ph.incomingCoordinates.get nb).getD []).dropLast))) := by
  induction L generalizing acc with
  | nil => exact absurd hmem (List.not_mem_nil nb)
  | cons x xs ih =>
    rw [List.nodup_cons] at hnodup
    by_cases hx : nb = x
    · subst hx
      rw [List.foldl_cons, phantomRegister_get_not_mem _ _ _ _ _ _ hnodup.1]
      show ((phantomRegisterStep src ph n acc nb).2.1).get nb = _
      unfold phantomRegisterStep
      rw [Fmap.get_set_self]
    · have hxs : nb ∈ xs := by
        cases List.mem_cons.mp hmem with
        | inl h => exact absurd h hx
        | inr h => exact h
      rw [List.foldl_cons, ih _ hnodup.2 hxs]
      show some (((((phantomRegisterStep src ph n acc x).2.1).get nb).getD Fmap.nil).set n _) = _
      unfold phantomRegisterStep
      rw [Fmap.get_set_ne _ _ _ _ hx]

theorem Fmap.not_mem_keys_of_get_none {α : Type} (m : Fmap α) (k : Key)
    (h : m.get k = none) : k ∉ m.keys := by
  induction m with
  | nil => simp [Fmap.keys]
  | cons p rest ih =>
    rw [Fmap.get_cons] at h
    by_cases hp : p.1 = k
    · rw [if_pos hp] at h
      exact absurd h (by simp)
    · rw [if_neg hp] at h
      simp only [Fmap.keys, List.map_cons, List.mem_cons]
      intro hmem
      cases hmem with
      | inl hmem => exact hp hmem.symm
      | inr hmem => exact ih h hmem

theorem compactInStep_coordinates (fuel : Nat) (n : Key)
    (vertices ends : Fmap (Fmap ℚ)) (coordsrc : Fmap Position)
    (acc : CompactedNode) (p : Key) :
    (compactInStep fuel n vertices ends coordsrc acc p).coordinates =
      acc.coordinates := by
  unfold compactInStep
  cases backwardWalk vertices ends coordsrc fuel n p 0 [] with
  | none => rfl
  | some r =>
    obtain ⟨vk, w, inter⟩ := r
    by_cases h1 : vk = n
    · simp [h1]
    · cases hb : (match acc.incomingEdges.get vk with
        | none => true
        | some w0 => decide (w < w0)) <;> simp [h1, hb]

theorem compactInStep_incomingEdges_get_self (fuel : Nat) (n : Key)
    (vertices ends : Fmap (Fmap ℚ)) (coordsrc : Fmap Position)
    (acc : CompactedNode) (p : Key) :
    (compactInStep fuel n vertices ends coordsrc acc p).incomingEdges.get n =
      acc.incomingEdges.get n := by
  unfold compactInStep
  cases backwardWalk vertices ends coordsrc fuel n p 0 [] with
  | none => rfl
  | some r =>
    obtain ⟨vk, w, inter⟩ := r
    by_cases h1 : vk = n
    · simp [h1]
    · cases hb : (match acc.incomingEdges.get vk with
        | none => true
        | some w0 => decide (w < w0)) <;>
        simp [h1, hb, Fmap.get_set_ne _ _ _ _ (Ne.symm h1)]

theorem compactInStep_incoming_nodup (fuel : Nat) (n : Key)
    (vertices ends : Fmap (Fmap ℚ)) (coordsrc : Fmap Position)
    (acc : CompactedNode) (p : Key)
    (h : acc.incomingEdges.keys.Nodup) :
    (compactInStep fuel n vertices ends coordsrc acc p).incomingEdges.keys.Nodup := by
  unfold compactInStep
  cases backwardWalk vertices ends coordsrc fuel n p 0 [] with
  | none => exact h
  | some r =>
    obtain ⟨vk, w, inter⟩ := r
    by_cases h1 : vk = n
    · simp [h1, h]
    · cases hb : (match acc.incomingEdges.get vk with
        | none => true
        | some w0 => decide (w < w0)) <;>
        simp [h1, hb, h, Fmap.nodup_keys_set _ _ _ h]

theorem compactOutStep_incomingEdges (fuel : Nat) (n : Key)
    (vertices ends : Fmap (Fmap ℚ)) (coordsrc : Fmap Position)
    (acc : CompactedNode) (j : Key) :
    (compactOutStep fuel n vertices ends coordsrc acc j).incomingEdges =
      acc.incomingEdges := by
  unfold compactOutStep
  cases forwardWalk vertices ends coordsrc fuel n j 0 [] with
  | none => rfl
  | some r =>
    obtain ⟨vk, w, inter⟩ := r
    by_cases h1 : vk = n
    · simp [h1]
    · cases hb : (match acc.edges.get vk with
        | none => true
        | some w0 => decide (w < w0)) <;> simp [h1, hb]

theorem compactOutStep_coordinates_head (fuel : Nat) (n : Key)
    (vertices ends : Fmap (Fmap ℚ)) (coordsrc : Fmap Position)
    (acc : CompactedNode) (j : Key)
    (h : ∀ vk l, acc.coordinates.get vk = some l →
      l.head? = some ((coordsrc.get n).getD [])) :
    ∀ vk l, (compactOutStep fuel n vertices ends coordsrc acc j).coordinates.get vk =
        some l → l.head? = some ((coordsrc.get n).getD []) := by
  intro vk2 l hget
  cases hw : forwardWalk vertices ends coordsrc fuel n j 0 [] with
  | none =>
    have hstep : compactOutStep fuel n vertices ends coordsrc acc j = acc := by
      unfold compactOutStep
      rw [hw]
    rw [hstep] at hget
    exact h vk2 l hget
  | some r =>
    obtain ⟨vk, w, inter⟩ := r
    have hstep : compactOutStep fuel n vertices ends coordsrc acc j =
        (if vk = n then acc
          else if (match acc.edges.get vk with
              | none => true
              | some w0 => decide (w < w0)) = true then
            { acc with
              edges := acc.edges.set vk w
              coordinates := acc.coordinates.set vk ((coordsrc.get n).getD [] :: inter) }
          else acc) := by
      unfold compactOutStep
      rw [hw]
    rw [hstep] at hget
    by_cases h1 : vk = n
    · rw [if_pos h1] at hget
      exact h vk2 l hget
    · rw [if_neg h1] at hget
      cases hb : (match acc.edges.get vk with
        | none => true
        | some w0 => decide (w < w0)) with
      | false =>
        rw [hb] at hget
        simp only [Bool.false_eq_true, if_false] at hget
        exact h vk2 l hget
      | true =>
        rw [hb] at hget
        simp only [if_true] at hget
        by_cases h2 : vk2 = vk
        · subst h2
          rw [Fmap.get_set_self] at hget
          cases hget
          rfl
        · rw [Fmap.get_set_ne _ _ _ _ h2] at hget
          exact h vk2 l hget

theorem compactNode_coordinates_head (fuel : Nat) (n : Key)
    (vertices ends : Fmap (Fmap ℚ)) (coordsrc : Fmap Position) :
    ∀ vk l, (compactNode fuel n vertices ends coordsrc).coordinates.get vk = some l →
      l.head? = some ((coordsrc.get n).getD []) := by
  unfold compactNode
  have hin : ∀ (L : List Key) (acc : CompactedNode),
      (L.foldl (compactInStep fuel n vertices ends coordsrc) acc).coordinates =
        acc.coordinates := by
    intro L
    induction L with
    | nil => intro acc; rfl
    | cons x xs ih =>
      intro acc
      rw [List.foldl_cons, ih, compactInStep_coordinates]
  have hout : ∀ (L : List Key) (acc : CompactedNode),
      (∀ vk l, acc.coordinates.get vk = some l →
        l.head? = some ((coordsrc.get n).getD [])) →
      ∀ vk l, (L.foldl (compactOutStep fuel n vertices ends coordsrc)
          acc).coordinates.get vk = some l →
        l.head? = some ((coordsrc.get n).getD []) := by
    intro L
    induction L with
    | nil => intro acc h; exact h
    | cons x xs ih =>
      intro acc h
      rw [List.foldl_cons]
      exact ih _ (compactOutStep_coordinates_head fuel n vertices ends coordsrc acc x h)
  intro vk l hget
  rw [hin] at hget
  refine hout _ _ ?_ vk l hget
  intro vk0 l0 h0
  exact absurd h0 (by simp [Fmap.get])

theorem compactNode_incoming_no_self (fuel : Nat) (n : Key)
    (vertices ends : Fmap (Fmap ℚ)) (coordsrc : Fmap Position) :
    (compactNode fuel n vertices ends coordsrc).incomingEdges.get n = none := by
  unfold compactNode
  have hout : ∀ (L : List Key) (acc : CompactedNode),
      (L.foldl (compactOutStep fuel n vertices ends coordsrc) acc).incomingEdges =
        acc.incomingEdges := by
    intro L
    induction L with
    | nil => intro acc; rfl
    | cons x xs ih =>
      intro acc
      rw [List.foldl_cons, ih, compactOutStep_incomingEdges]
  have hin : ∀ (L : List Key) (acc : CompactedNode),
      acc.incomingEdges.get n = none →
      (L.foldl (compactInStep fuel n vertices ends coordsrc) acc).incomingEdges.get n =
        none := by
    intro L
    induction L with
    | nil => intro acc h; exact h
    | cons x xs ih =>
      intro acc h
      rw [List.foldl_cons]
      refine ih _ ?_
      rw [compactInStep_incomingEdges_get_self]
      exact h
  refine hin _ _ ?_
  rw [hout]
  rfl

theorem compactNode_incoming_nodup (fuel : Nat) (n : Key)
    (vertices ends : Fmap (Fmap ℚ)) (coordsrc : Fmap Position) :
    (compactNode fuel n vertices ends coordsrc).incomingEdges.keys.Nodup := by
  unfold compactNode
  have hout : ∀ (L : List Key) (acc : CompactedNode),
      (L.foldl (compactOutStep fuel n vertices ends coordsrc) acc).incomingEdges =
        acc.incomingEdges := by
    intro L
    induction L with
    | nil => intro acc; rfl
    | cons x xs ih =>
      intro acc
      rw [List.foldl_cons, ih, compactOutStep_incomingEdges]
  have hin : ∀ (L : List Key) (acc : CompactedNode),
      acc.incomingEdges.keys.Nodup →
      (L.foldl (compactInStep fuel n vertices ends coordsrc)
        acc).incomingEdges.keys.Nodup := by
    intro L
    induction L with
    | nil => intro acc h; exact h
    | cons x xs ih =>
      intro acc h
      rw [List.foldl_cons]
      exact ih _ (compactInStep_incoming_nodup fuel n vertices ends coordsrc acc x h)
  refine hin _ _ ?_
  rw [hout]
  exact List.nodup_nil

/-- C5 (amended).  Compacted edges created by phantom injection store their
geometry head-first, the convention the reconstruction code and the
repository's tests fix: every outgoing list produced by the compactor walk
starts with the phantom's own coordinate (the tail vertex u of the edge),
and every incoming edge registered on a neighbour stores the neighbour's
own coordinate followed by the walk coordinates trimmed of their last
element — v's coordinate is not appended; path reconstruction adds the
finish coordinate once instead. -/
theorem c5_phantom_edge_geometry (fuel : Nat) (g : Graph) (r : Bool) (n : Key)
    (hn : g.compactedVertices.get n = none) :
    ((createPhantom fuel g r n).1.compactedCoordinates.get n =
        some (compactNode fuel n g.vertices g.compactedVertices
          g.sourceCoordinates).coordinates) ∧
      (∀ vk l,
        (compactNode fuel n g.vertices g.compactedVertices
            g.sourceCoordinates).coordinates.get vk = some l →
          l.head? = some ((g.sourceCoordinates.get n).getD [])) ∧
      (∀ nb, nb ∈ (compactNode fuel n g.vertices g.compactedVertices
          g.sourceCoordinates).incomingEdges.keys →
        (((createPhantom fuel g r n).1.compactedCoordinates.get nb).getD Fmap.nil).get n =
          some ((g.sourceCoordinates.get nb).getD [] ::
            (((compactNode fuel n g.vertices g.compactedVertices
                g.sourceCoordinates).incomingCoordinates.get nb).getD []).dropLast)) := by
  have hiso : (g.compactedVertices.get n).isSome = false := by rw [hn]; rfl
  have hns : n ∉ (compactNode fuel n g.vertices g.compactedVertices
      g.sourceCoordinates).incomingEdges.keys :=
    Fmap.not_mem_keys_of_get_none _ _
      (compactNode_incoming_no_self fuel n g.vertices g.compactedVertices
        g.sourceCoordinates)
  have hcc : (createPhantom fuel g r n).1.compactedCoordinates =
      ((compactNode fuel n g.vertices g.compactedVertices
          g.sourceCoordinates).incomingEdges.keys.foldl
        (phantomRegisterStep g.sourceCoordinates
          (compactNode fuel n g.vertices g.compactedVertices g.sourceCoordinates) n)
        (g.compactedVertices.set n (compactNode fuel n g.vertices g.compactedVertices
            g.sourceCoordinates).edges,
          g.compactedCoordinates.set n (compactNode fuel n g.vertices
            g.compactedVertices g.sourceCoordinates).coordinates,
          if r then g.compactedEdges.set n (compactNode fuel n g.vertices
            g.compactedVertices g.sourceCoordinates).reducedEdges
          else g.compactedEdges)).2.1 := by
    unfold createPhantom
    rw [hiso]
    simp
  refine ⟨?_, compactNode_coordinates_head fuel n g.vertices g.compactedVertices
    g.sourceCoordinates, ?_⟩
  · rw [hcc, phantomRegister_get_not_mem _ _ _ _ _ _ hns]
    show (g.compactedCoordinates.set n _).get n = _
    rw [Fmap.get_set_self]
  · intro nb hnb
    rw [hcc, phantomRegister_get_mem _ _ _ _ _ _
      (compactNode_incoming_nodup fuel n g.vertices g.compactedVertices
        g.sourceCoordinates) hnb]
    rw [Option.getD_some, Fmap.get_set_self]

theorem c5_phantom_edge_geometry_witness :
    (((createPhantom 10 gChain4 false "n").1.compactedCoordinates.get "a").getD
        Fmap.nil).get "n" =
      some ((gChain4.sourceCoordinates.get "a").getD [] ::
        (((compactNode 10 "n" gChain4.vertices gChain4.compactedVertices
            gChain4.sourceCoordinates).incomingCoordinates.get "a").getD []).dropLast) :=
  (c5_phantom_edge_geometry 10 gChain4 false "n" (by with_unfolding_all rfl)).2.2 "a"
    (of_decide_eq_true (by with_unfolding_all rfl))

/-! ## Path algebra -/

theorem pairsOf_snoc (l : List Key) (u v : Key) (hl : l.getLast? = some u) :
    pairsOf (l ++ [v]) = pairsOf l ++ [(u, v)] := by
  induction l with
  | nil => exact absurd hl (by simp)
  | cons a t ih =>
    cases t with
    | nil =>
      simp at hl
      subst hl
      rfl
    | cons b t2 =>
      have hl2 : (b :: t2).getLast? = some u := by
        rw [List.getLast?_cons_cons] at hl
        exact hl
      show (a, b) :: pairsOf ((b :: t2) ++ [v]) = (a, b) :: pairsOf (b :: t2) ++ [(u, v)]
      rw [ih hl2]
      rfl

theorem pathCost_snoc (graph : Fmap (Fmap ℚ)) (l : List Key) (u v : Key)
    (hl : l.getLast? = some u) :
    pathCost graph (l ++ [v]) = pathCost graph l + (edgeWeight graph u v).getD 0 := by
  unfold pathCost
  rw [pairsOf_snoc l u v hl, List.foldl_append]
  rfl

theorem isChain_snoc (graph : Fmap (Fmap ℚ)) (l : List Key) (u v : Key)
    (hl : l.getLast? = some u) (hc : isChain graph l = true)
    (he : (edgeWeight graph u v).isSome = true) :
    isChain graph (l ++ [v]) = true := by
  unfold isChain at hc ⊢
  rw [pairsOf_snoc l u v hl, List.all_append]
  simp [hc, he]

theorem head?_snoc (l : List Key) (v : Key) (a : Key) (hl : l.head? = some a) :
    (l ++ [v]).head? = some a := by
  cases l with
  | nil => exact absurd hl (by simp)
  | cons x t =>
    simp at hl
    subst hl
    rfl

theorem Fmap.isSome_get_of_mem_keys {α : Type} (m : Fmap α) (k : Key)
    (h : k ∈ m.keys) : (m.get k).isSome = true := by
  induction m with
  | nil => exact absurd h (by simp [Fmap.keys])
  | cons p rest ih =>
    rw [Fmap.get_cons]
    by_cases hp : p.1 = k
    · rw [if_pos hp]; rfl
    · rw [if_neg hp]
      refine ih ?_
      simp only [Fmap.keys, List.map_cons, List.mem_cons] at h
      cases h with
      | inl h => exact absurd h.symm hp
      | inr h => exact h

theorem mem_dinsert (e s : DState) (q : List DState) :
    e ∈ dinsert s q ↔ e ∈ q ∨ e = s := by
  induction q with
  | nil => simp [dinsert]
  | cons x xs ih =>
    unfold dinsert
    by_cases h : x.cost ≤ s.cost
    · rw [if_pos h]
      simp only [List.mem_cons, ih]
      tauto
    · rw [if_neg h]
      simp only [List.mem_cons]
      tauto

theorem mem_ainsert (e s : AState) (q : List AState) :
    e ∈ ainsert s q ↔ e ∈ q ∨ e = s := by
  induction q with
  | nil => simp [ainsert]
  | cons x xs ih =>
    unfold ainsert
    by_cases h : x.estimate ≤ s.estimate
    · rw [if_pos h]
      simp only [List.mem_cons, ih]
      tauto
    · rw [if_neg h]
      simp only [List.mem_cons]
      tauto

/-! ## Entry soundness for both searches -/

/-- Every queue entry of a (bias-free) search run describes a real chain of
the graph from the start vertex to the entry's node, whose stored edge
weights sum to the entry's cost. -/
def DEntryInv (graph : Fmap (Fmap ℚ)) (start : Key) (e : DState) : Prop :=
  e.path.head? = some start ∧ e.path.getLast? = some e.node ∧
    isChain graph e.path = true ∧ e.cost = pathCost graph e.path

theorem dRelax1_inv (opts : SharedSearchOptions) (graph : Fmap (Fmap ℚ))
    (start : Key) (row : Fmap ℚ) (cost : ℚ) (node : Key) (path : List Key)
    (hdb : opts.directionBias = none)
    (hrow : row = (graph.get node).getD Fmap.nil)
    (hst : DEntryInv graph start ⟨cost, path, node⟩)
    (cq : Fmap ℚ × List DState) (n : Key) (hn : n ∈ row.keys)
    (hq : ∀ e ∈ cq.2, DEntryInv graph start e) :
    ∀ e ∈ (dRelax1 opts row cost node path cq n).2, DEntryInv graph start e := by
  intro e he
  unfold dRelax1 at he
  rw [hdb] at he
  cases hta : (match opts.isTurnAllowed with
    | some f => f path node n
    | none => true) with
  | false => rw [hta] at he; simp only [Bool.false_eq_true, if_false] at he; exact hq e he
  | true =>
    rw [hta] at he
    simp only [if_true] at he
    cases him : (match cq.1.get n with
      | none => true
      | some c => decide (cost + (row.get n).getD 0 + 0 < c)) with
    | false =>
      rw [him] at he
      simp only [Bool.false_eq_true, if_false] at he
      exact hq e he
    | true =>
      rw [him] at he
      simp only [if_true] at he
      have hmem := (mem_dinsert e _ cq.2).mp he
      cases hmem with
      | inl hmem => exact hq e hmem
      | inr hmem =>
        subst hmem
        have hrowsome : graph.get node = some row := by
          cases hg : graph.get node with
          | none =>
            rw [hg] at hrow
            simp [Option.getD] at hrow
            subst hrow
            exact absurd hn (by simp [Fmap.nil, Fmap.keys])
          | some r0 =>
            rw [hg] at hrow
            simp [Option.getD] at hrow
            rw [hrow]
        have hew : edgeWeight graph node n = row.get n := by
          unfold edgeWeight
          rw [hrowsome]
          rfl
        obtain ⟨hhd, hlast, hch, hcost⟩ := hst
        dsimp only at hhd hlast hch hcost
        refine ⟨head?_snoc _ _ _ hhd, ?_, ?_, ?_⟩
        · show (path ++ [n]).getLast? = some n
          rw [List.getLast?_concat]
        · exact isChain_snoc graph path node n hlast hch
            (by rw [hew]; exact Fmap.isSome_get_of_mem_keys row n hn)
        · show cost + (row.get n).getD 0 + 0 = pathCost graph (path ++ [n])
          rw [pathCost_snoc graph path node n hlast, hew, ← hcost]
          ring

theorem dRelax_inv (opts : SharedSearchOptions) (graph : Fmap (Fmap ℚ))
    (start : Key) (row : Fmap ℚ) (cost : ℚ) (node : Key) (path : List Key)
    (hdb : opts.directionBias = none)
    (hrow : row = (graph.get node).getD Fmap.nil)
    (hst : DEntryInv graph start ⟨cost, path, node⟩)
    (L : List Key) (hL : ∀ n ∈ L, n ∈ row.keys)
    (cq : Fmap ℚ × List DState)
    (hq : ∀ e ∈ cq.2, DEntryInv graph start e) :
    ∀ e ∈ (L.foldl (dRelax1 opts row cost node path) cq).2, DEntryInv graph start e := by
  induction L generalizing cq with
  | nil => exact hq
  | cons x xs ih =>
    rw [List.foldl_cons]
    refine ih (fun n hn => hL n (List.mem_cons_of_mem x hn)) _ ?_
    exact dRelax1_inv opts graph start row cost node path hdb hrow hst cq x
      (hL x (List.mem_cons_self x xs)) hq

theorem dijkstraLoop_zero (graph : Fmap (Fmap ℚ)) (endK : Key)
    (opts : SharedSearchOptions) (costs : Fmap ℚ) (queue : List DState)
    (trace : List (Key × ℚ)) :
    dijkstraLoop graph endK opts 0 costs queue trace = none := rfl

theorem dijkstraLoop_nil (graph : Fmap (Fmap ℚ)) (endK : Key)
    (opts : SharedSearchOptions) (fuel : Nat) (costs : Fmap ℚ)
    (trace : List (Key × ℚ)) :
    dijkstraLoop graph endK opts (fuel + 1) costs [] trace = some (none, trace) := rfl

theorem dijkstraLoop_cons (graph : Fmap (Fmap ℚ)) (endK : Key)
    (opts : SharedSearchOptions) (fuel : Nat) (costs : Fmap ℚ) (st : DState)
    (rest : List DState) (trace : List (Key × ℚ)) :
    dijkstraLoop graph endK opts (fuel + 1) costs (st :: rest) trace =
      if st.node = endK then
        some (some (st.cost, st.path), trace ++ [(st.node, st.cost)])
      else
        dijkstraLoop graph endK opts fuel
          (dRelax opts ((graph.get st.node).getD Fmap.nil) st.cost st.node st.path
            costs rest).1
          (dRelax opts ((graph.get st.node).getD Fmap.nil) st.cost st.node st.path
            costs rest).2
          (trace ++ [(st.node, st.cost)]) := rfl

theorem dijkstraLoop_sound (graph : Fmap (Fmap ℚ)) (endK : Key)
    (opts : SharedSearchOptions) (start : Key) (hdb : opts.directionBias = none) :
    ∀ (fuel : Nat) (costs : Fmap ℚ) (queue : List DState) (trace : List (Key × ℚ))
      (hq : ∀ e ∈ queue, DEntryInv graph start e) (w : ℚ) (p : List Key)
      (tr : List (Key × ℚ)),
      dijkstraLoop graph endK opts fuel costs queue trace = some (some (w, p), tr) →
      p.head? = some start ∧ p.getLast? = some endK ∧ isChain graph p = true ∧
        w = pathCost graph p := by
  intro fuel
  induction fuel with
  | zero => intro costs queue trace hq w p tr hres; exact absurd hres (by simp [dijkstraLoop])
  | succ fuel ih =>
    intro costs queue trace hq w p tr hres
    cases queue with
    | nil =>
      rw [dijkstraLoop_nil] at hres
      simp at hres
    | cons st rest =>
      rw [dijkstraLoop_cons] at hres
      by_cases hend : st.node = endK
      · rw [if_pos hend] at hres
        simp only [Option.some.injEq, Prod.mk.injEq] at hres
        obtain ⟨hhd, hlast, hch, hcost⟩ := hq st (List.mem_cons_self st rest)
        rw [← hres.1.1, ← hres.1.2]
        exact ⟨hhd, hend ▸ hlast, hch, hcost⟩
      · rw [if_neg hend] at hres
        refine ih _ _ _ ?_ w p tr hres
        exact dRelax_inv opts graph start _ st.cost st.node st.path hdb rfl
          (hq st (List.mem_cons_self st rest)) _ (fun n hn => hn) _
          (fun e he => hq e (List.mem_cons_of_mem st he))

def AEntryInv (graph : Fmap (Fmap ℚ)) (start : Key) (e : AState) : Prop :=
  e.path.head? = some start ∧ e.path.getLast? = some e.node ∧
    isChain graph e.path = true ∧ e.cost = pathCost graph e.path

theorem aRelax1_inv (opts : SharedSearchOptions) (d : Position → Position → ℚ)
    (coordinates : Option (Fmap Position)) (endK : Key) (graph : Fmap (Fmap ℚ))
    (start : Key) (row : Fmap ℚ) (cost : ℚ) (node : Key) (path : List Key)
    (hdb : opts.directionBias = none)
    (hrow : row = (graph.get node).getD Fmap.nil)
    (hst : AEntryInv graph start ⟨cost, 0, path, node⟩)
    (cq : Fmap ℚ × List AState) (n : Key) (hn : n ∈ row.keys)
    (hq : ∀ e ∈ cq.2, AEntryInv graph start e) :
    ∀ e ∈ (aRelax1 opts d coordinates endK row cost node path cq n).2,
      AEntryInv graph start e := by
  intro e he
  unfold aRelax1 at he
  rw [hdb] at he
  dsimp only at he
  cases him : (match cq.1.get n with
    | none => true
    | some c => decide (cost + (row.get n).getD 0 + 0 < c)) with
  | false =>
    rw [him] at he
    simp only [Bool.false_eq_true, if_false] at he
    exact hq e he
  | true =>
    rw [him] at he
    simp only [if_true] at he
    have hmem := (mem_ainsert e _ cq.2).mp he
    cases hmem with
    | inl hmem => exact hq e hmem
    | inr hmem =>
      subst hmem
      have hrowsome : graph.get node = some row := by
        cases hg : graph.get node with
        | none =>
          rw [hg] at hrow
          simp [Option.getD] at hrow
          subst hrow
          exact absurd hn (by simp [Fmap.nil, Fmap.keys])
        | some r0 =>
          rw [hg] at hrow
          simp [Option.getD] at hrow
          rw [hrow]
      have hew : edgeWeight graph node n = row.get n := by
        unfold edgeWeight
        rw [hrowsome]
        rfl
      obtain ⟨hhd, hlast, hch, hcost⟩ := hst
      dsimp only at hhd hlast hch hcost
      refine ⟨head?_snoc _ _ _ hhd, ?_, ?_, ?_⟩
      · show (path ++ [n]).getLast? = some n
        rw [List.getLast?_concat]
      · exact isChain_snoc graph path node n hlast hch
          (by rw [hew]; exact Fmap.isSome_get_of_mem_keys row n hn)
      · show cost + (row.get n).getD 0 + 0 = pathCost graph (path ++ [n])
        rw [pathCost_snoc graph path node n hlast, hew, ← hcost]
        ring

theorem aRelax_inv (opts : SharedSearchOptions) (d : Position → Position → ℚ)
    (coordinates : Option (Fmap Position)) (endK : Key) (graph : Fmap (Fmap ℚ))
    (start : Key) (row : Fmap ℚ) (cost : ℚ) (node : Key) (path : List Key)
    (hdb : opts.directionBias = none)
    (hrow : row = (graph.get node).getD Fmap.nil)
    (hst : AEntryInv graph start ⟨cost, 0, path, node⟩)
    (L : List Key) (hL : ∀ n ∈ L, n ∈ row.keys)
    (cq : Fmap ℚ × List AState)
    (hq : ∀ e ∈ cq.2, AEntryInv graph start e) :
    ∀ e ∈ (L.foldl (aRelax1 opts d coordinates endK row cost node path) cq).2,
      AEntryInv graph start e := by
  induction L generalizing cq with
  | nil => exact hq
  | cons x xs ih =>
    rw [List.foldl_cons]
    refine ih (fun n hn => hL n (List.mem_cons_of_mem x hn)) _ ?_
    exact aRelax1_inv opts d coordinates endK graph start row cost node path hdb hrow
      hst cq x (hL x (List.mem_cons_self x xs)) hq

theorem astarLoop_zero (graph : Fmap (Fmap ℚ)) (endK : Key)
    (opts : SharedSearchOptions) (d : Position → Position → ℚ)
    (coordinates : Option (Fmap Position)) (costs : Fmap ℚ) (queue : List AState)
    (trace : List (Key × ℚ)) :
    astarLoop graph endK opts d coordinates 0 costs queue trace = none := rfl

theorem astarLoop_nil (graph : Fmap (Fmap ℚ)) (endK : Key)
    (opts : SharedSearchOptions) (d : Position → Position → ℚ)
    (coordinates : Option (Fmap Position)) (fuel : Nat) (costs : Fmap ℚ)
    (trace : List (Key × ℚ)) :
    astarLoop graph endK opts d coordinates (fuel + 1) costs [] trace =
      some (none, trace) := rfl

theorem astarLoop_cons (graph : Fmap (Fmap ℚ)) (endK : Key)
    (opts : SharedSearchOptions) (d : Position → Position → ℚ)
    (coordinates : Option (Fmap Position)) (fuel : Nat) (costs : Fmap ℚ)
    (st : AState) (rest : List AState) (trace : List (Key × ℚ)) :
    astarLoop graph endK opts d coordinates (fuel + 1) costs (st :: rest) trace =
      if (match costs.get st.node with
          | some c => decide (c < st.cost)
          | none => false) = true then
        astarLoop graph endK opts d coordinates fuel costs rest trace
      else if st.node = endK then
        some (some (st.cost, st.path), trace ++ [(st.node, st.cost)])
      else
        astarLoop graph endK opts d coordinates fuel
          (aRelax opts d coordinates endK ((graph.get st.node).getD Fmap.nil)
            st.cost st.node st.path costs rest).1
          (aRelax opts d coordinates endK ((graph.get st.node).getD Fmap.nil)
            st.cost st.node st.path costs rest).2
          (trace ++ [(st.node, st.cost)]) := rfl

theorem astarLoop_sound (graph : Fmap (Fmap ℚ)) (endK : Key)
    (opts : SharedSearchOptions) (d : Position → Position → ℚ)
    (coordinates : Option (Fmap Position)) (start : Key)
    (hdb : opts.directionBias = none) :
    ∀ (fuel : Nat) (costs : Fmap ℚ) (queue : List AState) (trace : List (Key × ℚ)),
      (∀ e ∈ queue, AEntryInv graph start e) → ∀ (w : ℚ) (p : List Key)
      (tr : List (Key × ℚ)),
      astarLoop graph endK opts d coordinates fuel costs queue trace =
        some (some (w, p), tr) →
      p.head? = some start ∧ p.getLast? = some endK ∧ isChain graph p = true ∧
        w = pathCost graph p := by
  intro fuel
  induction fuel with
  | zero =>
    intro costs queue trace hq w p tr hres
    exact absurd hres (by simp [astarLoop])
  | succ fuel ih =>
    intro costs queue trace hq w p tr hres
    cases queue with
    | nil =>
      rw [astarLoop_nil] at hres
      simp at hres
    | cons st rest =>
      rw [astarLoop_cons] at hres
      by_cases hstale : (match costs.get st.node with
        | some c => decide (c < st.cost)
        | none => false) = true
      · rw [if_pos hstale] at hres
        exact ih _ _ _ (fun e he => hq e (List.mem_cons_of_mem st he)) w p tr hres
      · rw [if_neg hstale] at hres
        by_cases hend : st.node = endK
        · rw [if_pos hend] at hres
          simp only [Option.some.injEq, Prod.mk.injEq] at hres
          obtain ⟨hhd, hlast, hch, hcost⟩ := hq st (List.mem_cons_self st rest)
          rw [← hres.1.1, ← hres.1.2]
          exact ⟨hhd, hend ▸ hlast, hch, hcost⟩
        · rw [if_neg hend] at hres
          refine ih _ _ _ ?_ w p tr hres
          have hst0 := hq st (List.mem_cons_self st rest)
          have hst : AEntryInv graph start ⟨st.cost, 0, st.path, st.node⟩ := by
            obtain ⟨h1, h2, h3, h4⟩ := hst0
            exact ⟨h1, h2, h3, h4⟩
          exact aRelax_inv opts d coordinates endK graph start _ st.cost st.node
            st.path hdb rfl hst _ (fun n hn => hn) _
            (fun e he => hq e (List.mem_cons_of_mem st he))

/-- C6 (amended).  With no `directionBias` configured, the weight returned
by either search equals the sum over consecutive key pairs of the compacted
edge weights `compactedVertices[k_{i-1}][k_i]` along the returned key
sequence, which is a chain of real edges from start to finish.  When a
`directionBias` is configured the returned weight also includes the bias
values and can exceed that sum. -/
theorem c6_weight_sum (graph : Fmap (Fmap ℚ)) (start endK : Key) :
    (∀ (opts : SharedSearchOptions), opts.directionBias = none →
      ∀ (fuel : Nat) (w : ℚ) (p : List Key) (tr : List (Key × ℚ)),
        findPathDijkstra fuel graph start endK opts = some (some (w, p), tr) →
        w = pathCost graph p ∧ isChain graph p = true ∧ p.head? = some start ∧
          p.getLast? = some endK) ∧
      (∀ (opts : SharedSearchOptions), opts.directionBias = none →
        ∀ (coords : Option (Fmap Position)) (d : Position → Position → ℚ)
          (fuel : Nat) (w : ℚ) (p : List Key) (tr : List (Key × ℚ)),
          findPathAStar fuel graph start endK opts coords d = some (some (w, p), tr) →
          w = pathCost graph p ∧ isChain graph p = true ∧ p.head? = some start ∧
            p.getLast? = some endK) := by
  have hinit : ∀ e ∈ ([⟨0, [start], start⟩] : List DState), DEntryInv graph start e := by
    intro e he
    simp at he
    subst he
    exact ⟨rfl, rfl, rfl, rfl⟩
  constructor
  · intro opts hdb fuel w p tr hres
    have h := dijkstraLoop_sound graph endK opts start hdb fuel [(start, 0)]
      [⟨0, [start], start⟩] [] hinit w p tr hres
    exact ⟨h.2.2.2, h.2.2.1, h.1, h.2.1⟩
  · intro opts hdb coords d fuel w p tr hres
    have hinitA : ∀ e ∈ ([⟨0, heuristic d coords start endK, [start], start⟩] :
        List AState), AEntryInv graph start e := by
      intro e he
      simp at he
      subst he
      exact ⟨rfl, rfl, rfl, rfl⟩
    have h := astarLoop_sound graph endK opts d coords start hdb fuel [(start, 0)]
      [⟨0, heuristic d coords start endK, [start], start⟩] [] hinitA w p tr hres
    exact ⟨h.2.2.2, h.2.2.1, h.1, h.2.1⟩

theorem c6_weight_sum_witness :
    (2 : ℚ) = pathCost gCross.compactedVertices ["s", "m", "t"] ∧
      isChain gCross.compactedVertices ["s", "m", "t"] = true ∧
      (["s", "m", "t"] : List Key).head? = some "s" ∧
      (["s", "m", "t"] : List Key).getLast? = some "t" :=
  (c6_weight_sum gCross.compactedVertices "s" "t").1 {} rfl 10 2 ["s", "m", "t"]
    [("s", 0), ("m", 1), ("t", 2)] (by with_unfolding_all rfl)

/-! ## The a-star event trace: lazy deletion discards stale entries -/

/-- Invariant tying the a-star `costs` table, the pending queue and the
emitted `onNodeExpanded` trace together: every queue entry and every past
event sits at or above the recorded best cost of its node, queue entries
for one node carry pairwise distinct costs, past events for one node have
strictly decreasing costs, and a queue entry that is not stale undercuts
every past event for its node. -/
def ATraceInv (costs : Fmap ℚ) (queue : List AState)
    (trace : List (Key × ℚ)) : Prop :=
  (∀ e ∈ queue, ∃ c, costs.get e.node = some c ∧ c ≤ e.cost) ∧
    queue.Pairwise (fun e f => e.node = f.node → e.cost ≠ f.cost) ∧
    trace.Pairwise (fun a b => a.1 = b.1 → b.2 < a.2) ∧
    (∀ kc ∈ trace, ∃ c, costs.get kc.1 = some c ∧ c ≤ kc.2) ∧
    (∀ e ∈ queue, ∀ kc ∈ trace, e.node = kc.1 →
      e.cost < kc.2 ∨ ∃ c, costs.get e.node = some c ∧ c < e.cost)

theorem pairwise_ainsert (R : AState → AState → Prop) (s : AState)
    (q : List AState) (hq : q.Pairwise R) (hs : ∀ e ∈ q, R s e ∧ R e s) :
    (ainsert s q).Pairwise R := by
  induction q with
  | nil => simp [ainsert]
  | cons x xs ih =>
    rw [List.pairwise_cons] at hq
    unfold ainsert
    by_cases hle : x.estimate ≤ s.estimate
    · rw [if_pos hle, List.pairwise_cons]
      refine ⟨fun e he => ?_,
        ih hq.2 (fun e he => hs e (List.mem_cons_of_mem x he))⟩
      rcases (mem_ainsert e s xs).mp he with h | h
      · exact hq.1 e h
      · subst h
        exact (hs x (List.mem_cons_self x xs)).2
    · rw [if_neg hle, List.pairwise_cons]
      refine ⟨fun e he => ?_, List.pairwise_cons.mpr hq⟩
      rcases List.mem_cons.mp he with h | h
      · rw [h]
        exact (hs x (List.mem_cons_self x xs)).1
      · exact (hs e (List.mem_cons_of_mem x h)).1

theorem aRelax1_cases (opts : SharedSearchOptions) (d : Position → Position → ℚ)
    (coordinates : Option (Fmap Position)) (endK : Key) (row : Fmap ℚ)
    (cost : ℚ) (node : Key) (path : List Key) (cq : Fmap ℚ × List AState)
    (n : Key) :
    aRelax1 opts d coordinates endK row cost node path cq n = cq ∨
      ∃ w est, (∀ c, cq.1.get n = some c → w < c) ∧
        aRelax1 opts d coordinates endK row cost node path cq n =
          (cq.1.set n w, ainsert ⟨w, est, path ++ [n], n⟩ cq.2) := by
  unfold aRelax1
  dsimp only
  split
  · next himp =>
    right
    refine ⟨_, _, ?_, rfl⟩
    intro c hc
    rw [hc] at himp
    exact of_decide_eq_true himp
  · left
    rfl

theorem aRelax1_traceInv (opts : SharedSearchOptions)
    (d : Position → Position → ℚ) (coordinates : Option (Fmap Position))
    (endK : Key) (row : Fmap ℚ) (cost : ℚ) (node : Key) (path : List Key)
    (trace : List (Key × ℚ)) (cq : Fmap ℚ × List AState)
    (hinv : ATraceInv cq.1 cq.2 trace) (n : Key) :
    ATraceInv (aRelax1 opts d coordinates endK row cost node path cq n).1
      (aRelax1 opts d coordinates endK row cost node path cq n).2 trace := by
  rcases aRelax1_cases opts d coordinates endK row cost node path cq n with
    heq | ⟨w, est, himp, heq⟩
  · rw [heq]
    exact hinv
  · rw [heq]
    obtain ⟨hK, hD, hT, hTC, hTQ⟩ := hinv
    dsimp only
    refine ⟨?_, ?_, hT, ?_, ?_⟩
    · intro e he
      rcases (mem_ainsert e _ cq.2).mp he with h | h
      · obtain ⟨c, hc, hle⟩ := hK e h
        by_cases hn : e.node = n
        · exact ⟨w, by rw [hn, Fmap.get_set_self],
            le_of_lt (lt_of_lt_of_le (himp c (hn ▸ hc)) hle)⟩
        · exact ⟨c, by rw [Fmap.get_set_ne _ _ _ _ hn]; exact hc, hle⟩
      · subst h
        exact ⟨w, Fmap.get_set_self _ _ _, le_refl w⟩
    · refine pairwise_ainsert _ _ _ hD ?_
      intro e he
      obtain ⟨c, hc, hle⟩ := hK e he
      constructor
      · intro hn
        have hn2 : n = e.node := hn
        have hc2 : cq.1.get n = some c := by rw [hn2]; exact hc
        exact ne_of_lt (lt_of_lt_of_le (himp c hc2) hle)
      · intro hn
        have hn2 : e.node = n := hn
        have hc2 : cq.1.get n = some c := by rw [← hn2]; exact hc
        exact (ne_of_lt (lt_of_lt_of_le (himp c hc2) hle)).symm
    · intro kc hkc
      obtain ⟨c, hc, hle⟩ := hTC kc hkc
      by_cases hn : kc.1 = n
      · exact ⟨w, by rw [hn, Fmap.get_set_self],
          le_of_lt (lt_of_lt_of_le (himp c (hn ▸ hc)) hle)⟩
      · exact ⟨c, by rw [Fmap.get_set_ne _ _ _ _ hn]; exact hc, hle⟩
    · intro e he kc hkc hnode
      rcases (mem_ainsert e _ cq.2).mp he with h | h
      · rcases hTQ e h kc hkc hnode with hlt | ⟨c, hc, hlt⟩
        · exact Or.inl hlt
        · right
          by_cases hn : e.node = n
          · exact ⟨w, by rw [hn, Fmap.get_set_self],
              lt_trans (himp c (hn ▸ hc)) hlt⟩
          · exact ⟨c, by rw [Fmap.get_set_ne _ _ _ _ hn]; exact hc, hlt⟩
      · subst h
        left
        obtain ⟨c, hc, hle⟩ := hTC kc hkc
        have hnode2 : n = kc.1 := hnode
        have hc2 : cq.1.get n = some c := by rw [hnode2]; exact hc
        exact lt_of_lt_of_le (himp c hc2) hle

theorem aRelaxFold_traceInv (opts : SharedSearchOptions)
    (d : Position → Position → ℚ) (coordinates : Option (Fmap Position))
    (endK : Key) (row : Fmap ℚ) (cost : ℚ) (node : Key) (path : List Key)
    (trace : List (Key × ℚ)) (L : List Key) :
    ∀ (cq : Fmap ℚ × List AState), ATraceInv cq.1 cq.2 trace →
      ATraceInv
        (L.foldl (aRelax1 opts d coordinates endK row cost node path) cq).1
        (L.foldl (aRelax1 opts d coordinates endK row cost node path) cq).2
        trace := by
  induction L with
  | nil => intro cq h; exact h
  | cons x xs ih =>
    intro cq h
    rw [List.foldl_cons]
    exact ih _ (aRelax1_traceInv opts d coordinates endK row cost node path
      trace cq h x)

theorem aRelax_traceInv (opts : SharedSearchOptions)
    (d : Position → Position → ℚ) (coordinates : Option (Fmap Position))
    (endK : Key) (row : Fmap ℚ) (cost : ℚ) (node : Key) (path : List Key)
    (costs : Fmap ℚ) (queue : List AState) (trace : List (Key × ℚ))
    (h : ATraceInv costs queue trace) :
    ATraceInv (aRelax opts d coordinates endK row cost node path costs queue).1
      (aRelax opts d coordinates endK row cost node path costs queue).2
      trace :=
  aRelaxFold_traceInv opts d coordinates endK row cost node path trace
    row.keys (costs, queue) h

theorem aTraceInv_tail (costs : Fmap ℚ) (st : AState) (rest : List AState)
    (trace : List (Key × ℚ)) (hinv : ATraceInv costs (st :: rest) trace) :
    ATraceInv costs rest trace := by
  obtain ⟨hK, hD, hT, hTC, hTQ⟩ := hinv
  exact ⟨fun e he => hK e (List.mem_cons_of_mem st he),
    (List.pairwise_cons.mp hD).2, hT, hTC,
    fun e he kc hkc => hTQ e (List.mem_cons_of_mem st he) kc hkc⟩

theorem aTraceInv_pop (costs : Fmap ℚ) (st : AState) (rest : List AState)
    (trace : List (Key × ℚ)) (hinv : ATraceInv costs (st :: rest) trace)
    (hc : costs.get st.node = some st.cost) :
    ATraceInv costs rest (trace ++ [(st.node, st.cost)]) := by
  obtain ⟨hK, hD, hT, hTC, hTQ⟩ := hinv
  rw [List.pairwise_cons] at hD
  refine ⟨fun e he => hK e (List.mem_cons_of_mem st he), hD.2, ?_, ?_, ?_⟩
  · rw [List.pairwise_append]
    refine ⟨hT, List.pairwise_singleton _ _, ?_⟩
    intro a ha b hb hab
    rw [List.mem_singleton] at hb
    subst hb
    rcases hTQ st (List.mem_cons_self st rest) a ha hab.symm with
      h | ⟨c, hc2, hlt⟩
    · exact h
    · rw [hc, Option.some.injEq] at hc2
      subst hc2
      exact absurd hlt (lt_irrefl _)
  · intro kc hkc
    rcases List.mem_append.mp hkc with h | h
    · exact hTC kc h
    · rw [List.mem_singleton] at h
      subst h
      exact ⟨st.cost, hc, le_refl _⟩
  · intro e he kc hkc hnode
    rcases List.mem_append.mp hkc with h | h
    · exact hTQ e (List.mem_cons_of_mem st he) kc h hnode
    · rw [List.mem_singleton] at h
      subst h
      obtain ⟨c, hce, hle⟩ := hK e (List.mem_cons_of_mem st he)
      have hnode2 : e.node = st.node := hnode
      rw [hnode2, hc, Option.some.injEq] at hce
      subst hce
      have hne := hD.1 e he hnode2.symm
      right
      exact ⟨st.cost, by rw [hnode2]; exact hc,
        lt_of_le_of_ne hle (Ne.symm (fun h0 => hne h0.symm))⟩

theorem astarLoop_trace (graph : Fmap (Fmap ℚ)) (endK : Key)
    (opts : SharedSearchOptions) (d : Position → Position → ℚ)
    (coordinates : Option (Fmap Position)) :
    ∀ (fuel : Nat) (costs : Fmap ℚ) (queue : List AState)
      (trace : List (Key × ℚ)), ATraceInv costs queue trace →
      ∀ (res : Option (ℚ × List Key)) (tr : List (Key × ℚ)),
        astarLoop graph endK opts d coordinates fuel costs queue trace =
          some (res, tr) →
        tr.Pairwise (fun a b => a.1 = b.1 → b.2 < a.2) ∧
          ∀ w p, res = some (w, p) → tr.getLast? = some (endK, w) := by
  intro fuel
  induction fuel with
  | zero =>
    intro costs queue trace hinv res tr hres
    exact absurd hres (by simp [astarLoop])
  | succ fuel ih =>
    intro costs queue trace hinv res tr hres
    cases queue with
    | nil =>
      rw [astarLoop_nil] at hres
      simp only [Option.some.injEq, Prod.mk.injEq] at hres
      obtain ⟨h1, h2⟩ := hres
      subst h2
      refine ⟨hinv.2.2.1, ?_⟩
      intro w p hwp
      rw [← h1] at hwp
      cases hwp
    | cons st rest =>
      rw [astarLoop_cons] at hres
      by_cases hstale : (match costs.get st.node with
          | some c => decide (c < st.cost)
          | none => false) = true
      · rw [if_pos hstale] at hres
        exact ih costs rest trace (aTraceInv_tail costs st rest trace hinv)
          res tr hres
      · rw [if_neg hstale] at hres
        obtain ⟨c, hc, hle⟩ := hinv.1 st (List.mem_cons_self st rest)
        have hnlt : ¬ c < st.cost := by
          intro hlt
          exact hstale (by rw [hc]; exact decide_eq_true hlt)
        have hcs : costs.get st.node = some st.cost :=
          hc.trans (congrArg some (le_antisymm hle (not_lt.mp hnlt)))
        have hpop := aTraceInv_pop costs st rest trace hinv hcs
        by_cases hend : st.node = endK
        · rw [if_pos hend] at hres
          simp only [Option.some.injEq, Prod.mk.injEq] at hres
          obtain ⟨h1, h2⟩ := hres
          subst h2
          refine ⟨hpop.2.2.1, ?_⟩
          intro w p hwp
          rw [← h1, Option.some.injEq, Prod.mk.injEq] at hwp
          rw [List.getLast?_concat, hend, hwp.1]
        · rw [if_neg hend] at hres
          exact ih _ _ _ (aRelax_traceInv opts d coordinates endK
            ((graph.get st.node).getD Fmap.nil) st.cost st.node st.path costs
            rest (trace ++ [(st.node, st.cost)]) hpop) res tr hres

/-- C3 (amended).  The Dijkstra search of dijkstra.ts pops every queue entry
and reports each pop through `onNodeExpanded`, including stale entries, so
the callback can fire more than once for a node; the a-star search discards
a popped entry whose cost exceeds the recorded best cost before reporting,
so its `onNodeExpanded` events carry strictly decreasing costs for any
given node, and when a path is found the final event is the goal node at
the returned weight. -/
theorem c3_astar_lazy_deletion (graph : Fmap (Fmap ℚ)) (start endK : Key)
    (opts : SharedSearchOptions) (coordinates : Option (Fmap Position))
    (d : Position → Position → ℚ) (fuel : Nat) (res : Option (ℚ × List Key))
    (tr : List (Key × ℚ))
    (hres : findPathAStar fuel graph start endK opts coordinates d =
      some (res, tr)) :
    tr.Pairwise (fun a b => a.1 = b.1 → b.2 < a.2) ∧
      ∀ w p, res = some (w, p) → tr.getLast? = some (endK, w) := by
  have hinit : ATraceInv [(start, 0)]
      [⟨0, heuristic d coordinates start endK, [start], start⟩] [] := by
    refine ⟨?_, List.pairwise_singleton _ _, List.Pairwise.nil,
      fun kc hkc => absurd hkc (List.not_mem_nil kc),
      fun e he kc hkc => absurd hkc (List.not_mem_nil kc)⟩
    intro e he
    rw [List.mem_singleton] at he
    subst he
    exact ⟨0, by unfold Fmap.get; rw [if_pos rfl], le_refl 0⟩
  exact astarLoop_trace graph endK opts d coordinates fuel [(start, 0)]
    [⟨0, heuristic d coordinates start endK, [start], start⟩] [] hinit
    res tr hres

theorem c3_astar_lazy_deletion_witness :
    ([("s", 0), ("m", 1), ("n", 3), ("z", 13)] : List (Key × ℚ)).Pairwise
        (fun a b => a.1 = b.1 → b.2 < a.2) ∧
      ([("s", 0), ("m", 1), ("n", 3), ("z", 13)] :
        List (Key × ℚ)).getLast? = some ("z", 13) := by
  have h := c3_astar_lazy_deletion dStaleGraph "s" "z" {} none
    (fun _ _ => 0) 10 (some (13, ["s", "m", "n", "z"]))
    [("s", 0), ("m", 1), ("n", 3), ("z", 13)] (by with_unfolding_all rfl)
  exact ⟨h.1, h.2 13 ["s", "m", "n", "z"] rfl⟩

/-! ## Shortest-path agreement machinery -/

theorem Fmap.mem_of_get_some {α : Type} (m : Fmap α) (k : Key) (v : α)
    (h : m.get k = some v) : (k, v) ∈ (m : List (Key × α)) := by
  induction m with
  | nil => exact absurd h (by simp [Fmap.get])
  | cons p rest ih =>
    rw [Fmap.get_cons] at h
    by_cases hp : p.1 = k
    · rw [if_pos hp] at h
      rw [Option.some.injEq] at h
      refine List.mem_cons.mpr (Or.inl ?_)
      rw [← hp, ← h]
    · rw [if_neg hp] at h
      exact List.mem_cons_of_mem p (ih h)

/-- All edge weights of a weight table are positive (checked entry-wise). -/
def allPos (graph : Fmap (Fmap ℚ)) : Bool :=
  List.all (graph : List (Key × Fmap ℚ))
    (fun p => List.all (p.2 : List (Key × ℚ)) (fun q => decide (0 < q.2)))

theorem edgeWeight_pos_of_allPos (graph : Fmap (Fmap ℚ))
    (hall : allPos graph = true) :
    ∀ u v wv, edgeWeight graph u v = some wv → 0 < wv := by
  intro u v wv h
  unfold edgeWeight at h
  rw [Option.bind_eq_some] at h
  obtain ⟨row, hrow, hv⟩ := h
  have h1 := Fmap.mem_of_get_some graph u row hrow
  have h2 := Fmap.mem_of_get_some row v wv hv
  unfold allPos at hall
  rw [List.all_eq_true] at hall
  have h3 := hall _ h1
  rw [List.all_eq_true] at h3
  exact of_decide_eq_true (h3 _ h2)

theorem pairsOf_cons_cons (x y : Key) (l : List Key) :
    pairsOf (x :: y :: l) = (x, y) :: pairsOf (y :: l) := rfl

theorem pathCost_shift (graph : Fmap (Fmap ℚ)) :
    ∀ (L : List (Key × Key)) (c : ℚ),
      L.foldl (fun a pr => a + (edgeWeight graph pr.1 pr.2).getD 0) c =
        c + L.foldl (fun a pr => a + (edgeWeight graph pr.1 pr.2).getD 0) 0 := by
  intro L
  induction L with
  | nil => intro c; simp
  | cons pr rest ih =>
    intro c
    rw [List.foldl_cons, List.foldl_cons, ih, ih ((0 : ℚ) + _)]
    ring

theorem pathCost_cons_cons (graph : Fmap (Fmap ℚ)) (x y : Key) (l : List Key) :
    pathCost graph (x :: y :: l) =
      (edgeWeight graph x y).getD 0 + pathCost graph (y :: l) := by
  unfold pathCost
  rw [pairsOf_cons_cons, List.foldl_cons, pathCost_shift]
  ring

theorem pathCost_singleton (graph : Fmap (Fmap ℚ)) (x : Key) :
    pathCost graph [x] = 0 := rfl

theorem isChain_cons_cons (graph : Fmap (Fmap ℚ)) (x y : Key) (l : List Key) :
    isChain graph (x :: y :: l) =
      ((edgeWeight graph x y).isSome && isChain graph (y :: l)) := by
  unfold isChain
  rw [pairsOf_cons_cons, List.all_cons]

theorem pathCost_nonneg_of_chain (graph : Fmap (Fmap ℚ))
    (hpos : ∀ u v wv, edgeWeight graph u v = some wv → 0 < wv) :
    ∀ p, isChain graph p = true → 0 ≤ pathCost graph p := by
  intro p
  induction p with
  | nil => intro _; exact le_refl 0
  | cons x tl ih =>
    cases tl with
    | nil => intro _; exact le_refl 0
    | cons y l =>
      intro hch
      rw [isChain_cons_cons, Bool.and_eq_true] at hch
      rw [pathCost_cons_cons]
      cases hw : edgeWeight graph x y with
      | none =>
        rw [hw] at hch
        exact absurd hch.1 (by simp)
      | some wv =>
        have h1 := le_of_lt (hpos x y wv hw)
        have h2 := ih hch.2
        rw [Option.getD_some]
        linarith

/-- Every node recorded in `costs` either still has a live queue entry at or
below its recorded cost, or has already been reported expanded at or below
its recorded cost.  The queue is abstracted to its (node, cost) pairs. -/
def OInv (costs : Fmap ℚ) (qp : List (Key × ℚ)) (trace : List (Key × ℚ)) :
    Prop :=
  ∀ u c, costs.get u = some c →
    (∃ e ∈ qp, e.1 = u ∧ e.2 ≤ c) ∨ ∃ ev ∈ trace, ev.1 = u ∧ ev.2 ≤ c

/-- Every expanded node has had all its outgoing edges relaxed: each
neighbour's recorded cost is at most the expansion cost plus the edge
weight. -/
def RInv (graph : Fmap (Fmap ℚ)) (costs : Fmap ℚ)
    (trace : List (Key × ℚ)) : Prop :=
  ∀ ev ∈ trace, ∀ v wv, edgeWeight graph ev.1 v = some wv →
    ∃ cv, costs.get v = some cv ∧ cv ≤ ev.2 + wv

/-- Every queue entry sits at or above the recorded cost of its node. -/
def QKInv (costs : Fmap ℚ) (qp : List (Key × ℚ)) : Prop :=
  ∀ e ∈ qp, ∃ c, costs.get e.1 = some c ∧ c ≤ e.2

/-- Walking any chain that reaches the goal: either some queue entry can
still be extended to the goal within the chain budget, or the goal's
recorded cost is already within the budget. -/
theorem reachBound (graph : Fmap (Fmap ℚ)) (endK : Key) (costs : Fmap ℚ)
    (qp : List (Key × ℚ)) (trace : List (Key × ℚ))
    (hO : OInv costs qp trace) (hR : RInv graph costs trace) :
    ∀ (suf : List Key) (x : Key) (b c : ℚ), costs.get x = some c → c ≤ b →
      isChain graph (x :: suf) = true → (x :: suf).getLast? = some endK →
      (∃ e ∈ qp, ∃ tail, isChain graph (e.1 :: tail) = true ∧
          (e.1 :: tail).getLast? = some endK ∧
          e.2 + pathCost graph (e.1 :: tail) ≤ b + pathCost graph (x :: suf)) ∨
        ∃ c2, costs.get endK = some c2 ∧
          c2 ≤ b + pathCost graph (x :: suf) := by
  intro suf
  induction suf with
  | nil =>
    intro x b c hc hcb hch hlast
    right
    rw [List.getLast?_singleton, Option.some.injEq] at hlast
    subst hlast
    rw [pathCost_singleton]
    exact ⟨c, hc, by linarith⟩
  | cons y suf ih =>
    intro x b c hc hcb hch hlast
    rcases hO x c hc with ⟨e, he, hen, hecost⟩ | ⟨ev, hev, hevn, hevcost⟩
    · left
      refine ⟨e, he, y :: suf, by rw [hen]; exact hch,
        by rw [hen]; exact hlast, ?_⟩
      rw [hen]
      have : e.2 ≤ b := le_trans hecost (le_trans hcb (le_refl b))
      linarith
    · rw [isChain_cons_cons, Bool.and_eq_true] at hch
      obtain ⟨hxy, hch2⟩ := hch
      rw [Option.isSome_iff_exists] at hxy
      obtain ⟨wxy, hwxy⟩ := hxy
      obtain ⟨cy, hcy, hcyle⟩ := hR ev hev y wxy (by rw [hevn]; exact hwxy)
      have hlast2 : (y :: suf).getLast? = some endK := by
        rw [List.getLast?_cons_cons] at hlast
        exact hlast
      have hres := ih y (b + wxy) cy hcy (by linarith) hch2 hlast2
      rw [pathCost_cons_cons, hwxy, Option.getD_some]
      rcases hres with ⟨e, he, tail, h1, h2, h3⟩ | ⟨c2, h1, h2⟩
      · left
        exact ⟨e, he, tail, h1, h2, by linarith⟩
      · right
        exact ⟨c2, h1, by linarith⟩

def dmap (queue : List DState) : List (Key × ℚ) :=
  queue.map (fun e => (e.node, e.cost))

def amap (queue : List AState) : List (Key × ℚ) :=
  queue.map (fun e => (e.node, e.cost))

theorem dmap_cons (st : DState) (rest : List DState) :
    dmap (st :: rest) = (st.node, st.cost) :: dmap rest := rfl

theorem amap_cons (st : AState) (rest : List AState) :
    amap (st :: rest) = (st.node, st.cost) :: amap rest := rfl

theorem Fmap.mem_keys_of_get_some {α : Type} (m : Fmap α) (k : Key) (v : α)
    (h : m.get k = some v) : k ∈ m.keys :=
  List.mem_map_of_mem Prod.fst (Fmap.mem_of_get_some m k v h)

theorem dRelax1_cases2 (opts : SharedSearchOptions) (row : Fmap ℚ) (cost : ℚ)
    (node : Key) (path : List Key) (cq : Fmap ℚ × List DState) (n : Key)
    (hta : opts.isTurnAllowed = none) (hdb : opts.directionBias = none) :
    ((∃ c, cq.1.get n = some c ∧ c ≤ cost + (row.get n).getD 0 + 0) ∧
        dRelax1 opts row cost node path cq n = cq) ∨
      ((∀ c, cq.1.get n = some c → cost + (row.get n).getD 0 + 0 < c) ∧
        dRelax1 opts row cost node path cq n =
          (cq.1.set n (cost + (row.get n).getD 0 + 0),
            dinsert ⟨cost + (row.get n).getD 0 + 0, path ++ [n], n⟩ cq.2)) := by
  unfold dRelax1
  rw [hta, hdb]
  dsimp only
  split
  · split
    · next himp =>
      right
      refine ⟨?_, rfl⟩
      intro c hc
      rw [hc] at himp
      exact of_decide_eq_true himp
    · next himp =>
      left
      refine ⟨?_, rfl⟩
      cases hget : cq.1.get n with
      | none => exact absurd (by rw [hget]) himp
      | some c =>
        refine ⟨c, rfl, ?_⟩
        have hnlt : ¬ cost + (row.get n).getD 0 + 0 < c := by
          intro hlt
          exact himp (by rw [hget]; exact decide_eq_true hlt)
        exact not_lt.mp hnlt
  · next h => exact absurd rfl h

theorem sorted_dinsert (s : DState) (q : List DState)
    (hq : q.Pairwise (fun a b => a.cost ≤ b.cost)) :
    (dinsert s q).Pairwise (fun a b => a.cost ≤ b.cost) := by
  induction q with
  | nil => simp [dinsert]
  | cons x xs ih =>
    rw [List.pairwise_cons] at hq
    unfold dinsert
    by_cases hle : x.cost ≤ s.cost
    · rw [if_pos hle, List.pairwise_cons]
      refine ⟨fun e he => ?_, ih hq.2⟩
      rcases (mem_dinsert e s xs).mp he with h | h
      · exact hq.1 e h
      · rw [h]
        exact hle
    · rw [if_neg hle, List.pairwise_cons]
      refine ⟨fun e he => ?_, List.pairwise_cons.mpr hq⟩
      rcases List.mem_cons.mp he with h | h
      · rw [h]
        exact le_of_lt (not_le.mp hle)
      · exact le_trans (le_of_lt (not_le.mp hle)) (hq.1 e h)

theorem dRelaxFold_mono (opts : SharedSearchOptions) (row : Fmap ℚ) (cost : ℚ)
    (node : Key) (path : List Key) (hta : opts.isTurnAllowed = none)
    (hdb : opts.directionBias = none) (L : List Key) :
    ∀ (cq : Fmap ℚ × List DState) (v : Key) (c : ℚ), cq.1.get v = some c →
      ∃ c2, (L.foldl (dRelax1 opts row cost node path) cq).1.get v = some c2 ∧
        c2 ≤ c := by
  induction L with
  | nil => exact fun cq v c hc => ⟨c, hc, le_refl c⟩
  | cons x xs ih =>
    intro cq v c hc
    rw [List.foldl_cons]
    have hstep : ∃ c1,
        (dRelax1 opts row cost node path cq x).1.get v = some c1 ∧ c1 ≤ c := by
      rcases dRelax1_cases2 opts row cost node path cq x hta hdb with
        ⟨_, heq⟩ | ⟨hg, heq⟩
      · rw [heq]
        exact ⟨c, hc, le_refl c⟩
      · rw [heq]
        by_cases hv : v = x
        · subst hv
          exact ⟨_, Fmap.get_set_self _ _ _, le_of_lt (hg c hc)⟩
        · exact ⟨c, by rw [Fmap.get_set_ne _ _ _ _ hv]; exact hc, le_refl c⟩
    obtain ⟨c1, hg1, hle1⟩ := hstep
    obtain ⟨c2, hg2, hle2⟩ := ih _ v c1 hg1
    exact ⟨c2, hg2, le_trans hle2 hle1⟩

theorem dRelaxFold_bound (opts : SharedSearchOptions) (row : Fmap ℚ) (cost : ℚ)
    (node : Key) (path : List Key) (hta : opts.isTurnAllowed = none)
    (hdb : opts.directionBias = none) (L : List Key) :
    ∀ (cq : Fmap ℚ × List DState) (n : Key), n ∈ L →
      ∃ c2, (L.foldl (dRelax1 opts row cost node path) cq).1.get n = some c2 ∧
        c2 ≤ cost + (row.get n).getD 0 + 0 := by
  induction L with
  | nil => exact fun cq n hn => absurd hn (List.not_mem_nil n)
  | cons x xs ih =>
    intro cq n hn
    rw [List.foldl_cons]
    rcases List.mem_cons.mp hn with h | h
    · subst h
      have hstep : ∃ c1,
          (dRelax1 opts row cost node path cq n).1.get n = some c1 ∧
            c1 ≤ cost + (row.get n).getD 0 + 0 := by
        rcases dRelax1_cases2 opts row cost node path cq n hta hdb with
          ⟨⟨c, hc, hle⟩, heq⟩ | ⟨_, heq⟩
        · rw [heq]
          exact ⟨c, hc, hle⟩
        · rw [heq]
          exact ⟨_, Fmap.get_set_self _ _ _, le_refl _⟩
      obtain ⟨c1, hg1, hle1⟩ := hstep
      obtain ⟨c2, hg2, hle2⟩ :=
        dRelaxFold_mono opts row cost node path hta hdb xs _ n c1 hg1
      exact ⟨c2, hg2, le_trans hle2 hle1⟩
    · exact ih _ n h

/-- The queue-facing invariants carried through a Dijkstra relaxation. -/
def DQS (costs : Fmap ℚ) (queue : List DState) (trace : List (Key × ℚ)) :
    Prop :=
  QKInv costs (dmap queue) ∧ queue.Pairwise (fun a b => a.cost ≤ b.cost) ∧
    OInv costs (dmap queue) trace

theorem dRelax1_qs (opts : SharedSearchOptions) (row : Fmap ℚ) (cost : ℚ)
    (node : Key) (path : List Key) (hta : opts.isTurnAllowed = none)
    (hdb : opts.directionBias = none) (trace : List (Key × ℚ))
    (cq : Fmap ℚ × List DState) (n : Key) (h : DQS cq.1 cq.2 trace) :
    DQS (dRelax1 opts row cost node path cq n).1
      (dRelax1 opts row cost node path cq n).2 trace := by
  rcases dRelax1_cases2 opts row cost node path cq n hta hdb with
    ⟨_, heq⟩ | ⟨hg, heq⟩
  · rw [heq]
    exact h
  · rw [heq]
    obtain ⟨hK, hS, hO⟩ := h
    dsimp only
    refine ⟨?_, sorted_dinsert _ _ hS, ?_⟩
    · intro e he
      unfold dmap at he
      rw [List.mem_map] at he
      obtain ⟨a, ha, hae⟩ := he
      rcases (mem_dinsert a _ cq.2).mp ha with h2 | h2
      · obtain ⟨c, hc, hle⟩ := hK (a.node, a.cost) (List.mem_map_of_mem _ h2)
        rw [← hae]
        by_cases hv : a.node = n
        · refine ⟨cost + (row.get n).getD 0 + 0,
            by rw [hv, Fmap.get_set_self], ?_⟩
          rw [hv] at hc
          exact le_of_lt (lt_of_lt_of_le (hg c hc) hle)
        · exact ⟨c, by rw [Fmap.get_set_ne _ _ _ _ hv]; exact hc, hle⟩
      · rw [h2] at hae
        rw [← hae]
        exact ⟨cost + (row.get n).getD 0 + 0, Fmap.get_set_self _ _ _,
          le_refl _⟩
    · intro u c hc
      by_cases hu : u = n
      · subst hu
        rw [Fmap.get_set_self, Option.some.injEq] at hc
        left
        refine ⟨(u, cost + (row.get u).getD 0 + 0), ?_, rfl, le_of_eq hc⟩
        unfold dmap
        exact List.mem_map_of_mem _ ((mem_dinsert _ _ cq.2).mpr (Or.inr rfl))
      · rw [Fmap.get_set_ne _ _ _ _ hu] at hc
        rcases hO u c hc with ⟨e, he, hen, hec⟩ | hev
        · left
          refine ⟨e, ?_, hen, hec⟩
          unfold dmap at he ⊢
          rw [List.mem_map] at he
          obtain ⟨a, ha, hae⟩ := he
          rw [← hae]
          exact List.mem_map_of_mem _ ((mem_dinsert a _ cq.2).mpr (Or.inl ha))
        · exact Or.inr hev

theorem dRelaxFold_qs (opts : SharedSearchOptions) (row : Fmap ℚ) (cost : ℚ)
    (node : Key) (path : List Key) (hta : opts.isTurnAllowed = none)
    (hdb : opts.directionBias = none) (trace : List (Key × ℚ)) (L : List Key) :
    ∀ (cq : Fmap ℚ × List DState), DQS cq.1 cq.2 trace →
      DQS (L.foldl (dRelax1 opts row cost node path) cq).1
        (L.foldl (dRelax1 opts row cost node path) cq).2 trace := by
  induction L with
  | nil => exact fun cq h => h
  | cons x xs ih =>
    intro cq h
    rw [List.foldl_cons]
    exact ih _ (dRelax1_qs opts row cost node path hta hdb trace cq x h)

/-- The full Dijkstra optimality invariant. -/
def DOptInv (graph : Fmap (Fmap ℚ)) (start endK : Key) (costs : Fmap ℚ)
    (queue : List DState) (trace : List (Key × ℚ)) : Prop :=
  QKInv costs (dmap queue) ∧ queue.Pairwise (fun a b => a.cost ≤ b.cost) ∧
    OInv costs (dmap queue) trace ∧ RInv graph costs trace ∧
    (∃ c0, costs.get start = some c0 ∧ c0 ≤ 0) ∧ ∀ ev ∈ trace, ev.1 ≠ endK

theorem dstep_opt (graph : Fmap (Fmap ℚ)) (start endK : Key)
    (opts : SharedSearchOptions) (hta : opts.isTurnAllowed = none)
    (hdb : opts.directionBias = none) (st : DState) (rest : List DState)
    (costs : Fmap ℚ) (trace : List (Key × ℚ))
    (hinv : DOptInv graph start endK costs (st :: rest) trace)
    (hne : st.node ≠ endK) :
    DOptInv graph start endK
      (dRelax opts ((graph.get st.node).getD Fmap.nil) st.cost st.node st.path
        costs rest).1
      (dRelax opts ((graph.get st.node).getD Fmap.nil) st.cost st.node st.path
        costs rest).2
      (trace ++ [(st.node, st.cost)]) := by
  obtain ⟨hK, hS, hO, hR, hZ, hH⟩ := hinv
  have hKr : QKInv costs (dmap rest) := by
    intro e he
    exact hK e (by rw [dmap_cons]; exact List.mem_cons_of_mem _ he)
  have hSr : rest.Pairwise (fun a b => a.cost ≤ b.cost) :=
    (List.pairwise_cons.mp hS).2
  have hOr : OInv costs (dmap rest) (trace ++ [(st.node, st.cost)]) := by
    intro u c hc
    rcases hO u c hc with ⟨e, he, hen, hec⟩ | ⟨ev, hev, hevn, hevc⟩
    · rw [dmap_cons] at he
      rcases List.mem_cons.mp he with h | h
      · right
        refine ⟨(st.node, st.cost),
          List.mem_append_right _ (List.mem_singleton.mpr rfl), ?_, ?_⟩
        · rw [h] at hen
          exact hen
        · rw [h] at hec
          exact hec
      · exact Or.inl ⟨e, h, hen, hec⟩
    · exact Or.inr ⟨ev, List.mem_append_left _ hev, hevn, hevc⟩
  have hqs := dRelaxFold_qs opts ((graph.get st.node).getD Fmap.nil) st.cost
    st.node st.path hta hdb (trace ++ [(st.node, st.cost)])
    ((graph.get st.node).getD Fmap.nil).keys (costs, rest) ⟨hKr, hSr, hOr⟩
  refine ⟨hqs.1, hqs.2.1, hqs.2.2, ?_, ?_, ?_⟩
  · intro ev hev v wv hw
    rcases List.mem_append.mp hev with h | h
    · obtain ⟨cv, hcv, hcvle⟩ := hR ev h v wv hw
      obtain ⟨c2, hc2, hc2le⟩ := dRelaxFold_mono opts
        ((graph.get st.node).getD Fmap.nil) st.cost st.node st.path hta hdb
        ((graph.get st.node).getD Fmap.nil).keys (costs, rest) v cv hcv
      exact ⟨c2, hc2, le_trans hc2le hcvle⟩
    · rw [List.mem_singleton] at h
      subst h
      unfold edgeWeight at hw
      rw [Option.bind_eq_some] at hw
      obtain ⟨row0, hrow0, hwv⟩ := hw
      have hrow : (graph.get st.node).getD Fmap.nil = row0 := by
        rw [hrow0, Option.getD_some]
      have hmem : v ∈ ((graph.get st.node).getD Fmap.nil).keys := by
        rw [hrow]
        exact Fmap.mem_keys_of_get_some row0 v wv hwv
      obtain ⟨c2, hc2, hc2le⟩ := dRelaxFold_bound opts
        ((graph.get st.node).getD Fmap.nil) st.cost st.node st.path hta hdb
        ((graph.get st.node).getD Fmap.nil).keys (costs, rest) v hmem
      refine ⟨c2, hc2, ?_⟩
      rw [hrow, hwv, Option.getD_some] at hc2le
      linarith
  · obtain ⟨c0, hc0, hc0le⟩ := hZ
    obtain ⟨c2, hc2, hc2le⟩ := dRelaxFold_mono opts
      ((graph.get st.node).getD Fmap.nil) st.cost st.node st.path hta hdb
      ((graph.get st.node).getD Fmap.nil).keys (costs, rest) start c0 hc0
    exact ⟨c2, hc2, le_trans hc2le hc0le⟩
  · intro ev hev
    rcases List.mem_append.mp hev with h | h
    · exact hH ev h
    · rw [List.mem_singleton] at h
      rw [h]
      exact hne

theorem dijkstraLoop_opt (graph : Fmap (Fmap ℚ)) (start endK : Key)
    (opts : SharedSearchOptions) (hta : opts.isTurnAllowed = none)
    (hdb : opts.directionBias = none)
    (hpos : ∀ u v wv, edgeWeight graph u v = some wv → 0 < wv) :
    ∀ (fuel : Nat) (costs : Fmap ℚ) (queue : List DState)
      (trace : List (Key × ℚ)), DOptInv graph start endK costs queue trace →
      ∀ (res : Option (ℚ × List Key)) (tr : List (Key × ℚ)),
        dijkstraLoop graph endK opts fuel costs queue trace = some (res, tr) →
        ∀ (σtail : List Key), isChain graph (start :: σtail) = true →
          (start :: σtail).getLast? = some endK →
          ∃ w p, res = some (w, p) ∧ w ≤ pathCost graph (start :: σtail) := by
  intro fuel
  induction fuel with
  | zero =>
    intro costs queue trace hinv res tr hres
    exact absurd hres (by simp [dijkstraLoop])
  | succ fuel ih =>
    intro costs queue trace hinv res tr hres σtail hch hlast
    obtain ⟨hK, hS, hO, hR, hZ, hH⟩ := hinv
    cases queue with
    | nil =>
      obtain ⟨c0, hc0, hc0le⟩ := hZ
      have hrb := reachBound graph endK costs (dmap []) trace hO hR σtail
        start 0 c0 hc0 hc0le hch hlast
      rcases hrb with ⟨e, he, _⟩ | ⟨c2, hc2, _⟩
      · exact absurd he (List.not_mem_nil e)
      · rcases hO endK c2 hc2 with ⟨e, he, _⟩ | ⟨ev, hev, hevn, _⟩
        · exact absurd he (List.not_mem_nil e)
        · exact absurd hevn (hH ev hev)
    | cons st rest =>
      rw [dijkstraLoop_cons] at hres
      by_cases hend : st.node = endK
      · rw [if_pos hend] at hres
        simp only [Option.some.injEq, Prod.mk.injEq] at hres
        refine ⟨st.cost, st.path, hres.1.symm, ?_⟩
        obtain ⟨c0, hc0, hc0le⟩ := hZ
        have hrb := reachBound graph endK costs (dmap (st :: rest)) trace hO
          hR σtail start 0 c0 hc0 hc0le hch hlast
        have hhead : ∀ e ∈ dmap (st :: rest), st.cost ≤ e.2 := by
          intro e he
          rw [dmap_cons] at he
          rcases List.mem_cons.mp he with h | h
          · rw [h]
          · unfold dmap at h
            rw [List.mem_map] at h
            obtain ⟨a, ha, hae⟩ := h
            rw [← hae]
            exact (List.pairwise_cons.mp hS).1 a ha
        rcases hrb with ⟨e, he, tail, hch2, _, hb⟩ | ⟨c2, hc2, hb⟩
        · have h1 := hhead e he
          have h2 := pathCost_nonneg_of_chain graph hpos (e.1 :: tail) hch2
          linarith
        · rcases hO endK c2 hc2 with ⟨e, he, hen, hec⟩ | ⟨ev, hev, hevn, _⟩
          · have h1 := hhead e he
            linarith
          · exact absurd hevn (hH ev hev)
      · rw [if_neg hend] at hres
        exact ih _ _ _ (dstep_opt graph start endK opts hta hdb st rest costs
          trace ⟨hK, hS, hO, hR, hZ, hH⟩ hend) res tr hres σtail hch hlast

theorem aRelax1_cases2 (opts : SharedSearchOptions) (d : Position → Position → ℚ)
    (coordinates : Option (Fmap Position)) (endK : Key) (row : Fmap ℚ)
    (cost : ℚ) (node : Key) (path : List Key) (cq : Fmap ℚ × List AState)
    (n : Key) (hdb : opts.directionBias = none) :
    ((∃ c, cq.1.get n = some c ∧ c ≤ cost + (row.get n).getD 0 + 0) ∧
        aRelax1 opts d coordinates endK row cost node path cq n = cq) ∨
      ((∀ c, cq.1.get n = some c → cost + (row.get n).getD 0 + 0 < c) ∧
        aRelax1 opts d coordinates endK row cost node path cq n =
          (cq.1.set n (cost + (row.get n).getD 0 + 0),
            ainsert ⟨cost + (row.get n).getD 0 + 0,
              cost + (row.get n).getD 0 + 0 +
                heuristic d coordinates n endK,
              path ++ [n], n⟩ cq.2)) := by
  unfold aRelax1
  rw [hdb]
  dsimp only
  split
  · next himp =>
    right
    refine ⟨?_, rfl⟩
    intro c hc
    rw [hc] at himp
    exact of_decide_eq_true himp
  · next himp =>
    left
    refine ⟨?_, rfl⟩
    cases hget : cq.1.get n with
    | none => exact absurd (by rw [hget]) himp
    | some c =>
      refine ⟨c, rfl, ?_⟩
      have hnlt : ¬ cost + (row.get n).getD 0 + 0 < c := by
        intro hlt
        exact himp (by rw [hget]; exact decide_eq_true hlt)
      exact not_lt.mp hnlt

theorem sorted_ainsert (s : AState) (q : List AState)
    (hq : q.Pairwise (fun a b => a.estimate ≤ b.estimate)) :
    (ainsert s q).Pairwise (fun a b => a.estimate ≤ b.estimate) := by
  induction q with
  | nil => simp [ainsert]
  | cons x xs ih =>
    rw [List.pairwise_cons] at hq
    unfold ainsert
    by_cases hle : x.estimate ≤ s.estimate
    · rw [if_pos hle, List.pairwise_cons]
      refine ⟨fun e he => ?_, ih hq.2⟩
      rcases (mem_ainsert e s xs).mp he with h | h
      · exact hq.1 e h
      · rw [h]
        exact hle
    · rw [if_neg hle, List.pairwise_cons]
      refine ⟨fun e he => ?_, List.pairwise_cons.mpr hq⟩
      rcases List.mem_cons.mp he with h | h
      · rw [h]
        exact le_of_lt (not_le.mp hle)
      · exact le_trans (le_of_lt (not_le.mp hle)) (hq.1 e h)

theorem aRelaxFold_mono (opts : SharedSearchOptions)
    (d : Position → Position → ℚ) (coordinates : Option (Fmap Position))
    (endK : Key) (row : Fmap ℚ) (cost : ℚ) (node : Key) (path : List Key)
    (hdb : opts.directionBias = none) (L : List Key) :
    ∀ (cq : Fmap ℚ × List AState) (v : Key) (c : ℚ), cq.1.get v = some c →
      ∃ c2, (L.foldl (aRelax1 opts d coordinates endK row cost node path)
          cq).1.get v = some c2 ∧ c2 ≤ c := by
  induction L with
  | nil => exact fun cq v c hc => ⟨c, hc, le_refl c⟩
  | cons x xs ih =>
    intro cq v c hc
    rw [List.foldl_cons]
    have hstep : ∃ c1,
        (aRelax1 opts d coordinates endK row cost node path cq x).1.get v =
          some c1 ∧ c1 ≤ c := by
      rcases aRelax1_cases2 opts d coordinates endK row cost node path cq x
        hdb with ⟨_, heq⟩ | ⟨hg, heq⟩
      · rw [heq]
        exact ⟨c, hc, le_refl c⟩
      · rw [heq]
        by_cases hv : v = x
        · subst hv
          exact ⟨_, Fmap.get_set_self _ _ _, le_of_lt (hg c hc)⟩
        · exact ⟨c, by rw [Fmap.get_set_ne _ _ _ _ hv]; exact hc, le_refl c⟩
    obtain ⟨c1, hg1, hle1⟩ := hstep
    obtain ⟨c2, hg2, hle2⟩ := ih _ v c1 hg1
    exact ⟨c2, hg2, le_trans hle2 hle1⟩

theorem aRelaxFold_bound (opts : SharedSearchOptions)
    (d : Position → Position → ℚ) (coordinates : Option (Fmap Position))
    (endK : Key) (row : Fmap ℚ) (cost : ℚ) (node : Key) (path : List Key)
    (hdb : opts.directionBias = none) (L : List Key) :
    ∀ (cq : Fmap ℚ × List AState) (n : Key), n ∈ L →
      ∃ c2, (L.foldl (aRelax1 opts d coordinates endK row cost node path)
          cq).1.get n = some c2 ∧ c2 ≤ cost + (row.get n).getD 0 + 0 := by
  induction L with
  | nil => exact fun cq n hn => absurd hn (List.not_mem_nil n)
  | cons x xs ih =>
    intro cq n hn
    rw [List.foldl_cons]
    rcases List.mem_cons.mp hn with h | h
    · subst h
      have hstep : ∃ c1,
          (aRelax1 opts d coordinates endK row cost node path cq n).1.get n =
            some c1 ∧ c1 ≤ cost + (row.get n).getD 0 + 0 := by
        rcases aRelax1_cases2 opts d coordinates endK row cost node path cq n
          hdb with ⟨⟨c, hc, hle⟩, heq⟩ | ⟨_, heq⟩
        · rw [heq]
          exact ⟨c, hc, hle⟩
        · rw [heq]
          exact ⟨_, Fmap.get_set_self _ _ _, le_refl _⟩
      obtain ⟨c1, hg1, hle1⟩ := hstep
      obtain ⟨c2, hg2, hle2⟩ :=
        aRelaxFold_mono opts d coordinates endK row cost node path hdb xs _
          n c1 hg1
      exact ⟨c2, hg2, le_trans hle2 hle1⟩
    · exact ih _ n h

/-- The queue-facing invariants carried through an a-star relaxation. -/
def AQS (d : Position → Position → ℚ) (coordinates : Option (Fmap Position))
    (endK : Key) (costs : Fmap ℚ) (queue : List AState)
    (trace : List (Key × ℚ)) : Prop :=
  QKInv costs (amap queue) ∧
    queue.Pairwise (fun a b => a.estimate ≤ b.estimate) ∧
    (∀ e ∈ queue, e.estimate = e.cost + heuristic d coordinates e.node endK) ∧
    OInv costs (amap queue) trace

theorem aRelax1_qs (opts : SharedSearchOptions)
    (d : Position → Position → ℚ) (coordinates : Option (Fmap Position))
    (endK : Key) (row : Fmap ℚ) (cost : ℚ) (node : Key) (path : List Key)
    (hdb : opts.directionBias = none) (trace : List (Key × ℚ))
    (cq : Fmap ℚ × List AState) (n : Key)
    (h : AQS d coordinates endK cq.1 cq.2 trace) :
    AQS d coordinates endK
      (aRelax1 opts d coordinates endK row cost node path cq n).1
      (aRelax1 opts d coordinates endK row cost node path cq n).2 trace := by
  rcases aRelax1_cases2 opts d coordinates endK row cost node path cq n hdb
    with ⟨_, heq⟩ | ⟨hg, heq⟩
  · rw [heq]
    exact h
  · rw [heq]
    obtain ⟨hK, hS, hE, hO⟩ := h
    dsimp only
    refine ⟨?_, sorted_ainsert _ _ hS, ?_, ?_⟩
    · intro e he
      unfold amap at he
      rw [List.mem_map] at he
      obtain ⟨a, ha, hae⟩ := he
      rcases (mem_ainsert a _ cq.2).mp ha with h2 | h2
      · obtain ⟨c, hc, hle⟩ := hK (a.node, a.cost) (List.mem_map_of_mem _ h2)
        rw [← hae]
        by_cases hv : a.node = n
        · refine ⟨cost + (row.get n).getD 0 + 0,
            by rw [hv, Fmap.get_set_self], ?_⟩
          rw [hv] at hc
          exact le_of_lt (lt_of_lt_of_le (hg c hc) hle)
        · exact ⟨c, by rw [Fmap.get_set_ne _ _ _ _ hv]; exact hc, hle⟩
      · rw [h2] at hae
        rw [← hae]
        exact ⟨cost + (row.get n).getD 0 + 0, Fmap.get_set_self _ _ _,
          le_refl _⟩
    · intro e he
      rcases (mem_ainsert e _ cq.2).mp he with h2 | h2
      · exact hE e h2
      · rw [h2]
    · intro u c hc
      by_cases hu : u = n
      · subst hu
        rw [Fmap.get_set_self, Option.some.injEq] at hc
        left
        refine ⟨(u, cost + (row.get u).getD 0 + 0), ?_, rfl, le_of_eq hc⟩
        unfold amap
        exact List.mem_map_of_mem _ ((mem_ainsert _ _ cq.2).mpr (Or.inr rfl))
      · rw [Fmap.get_set_ne _ _ _ _ hu] at hc
        rcases hO u c hc with ⟨e, he, hen, hec⟩ | hev
        · left
          refine ⟨e, ?_, hen, hec⟩
          unfold amap at he ⊢
          rw [List.mem_map] at he
          obtain ⟨a, ha, hae⟩ := he
          rw [← hae]
          exact List.mem_map_of_mem _ ((mem_ainsert a _ cq.2).mpr (Or.inl ha))
        · exact Or.inr hev

theorem aRelaxFold_qs (opts : SharedSearchOptions)
    (d : Position → Position → ℚ) (coordinates : Option (Fmap Position))
    (endK : Key) (row : Fmap ℚ) (cost : ℚ) (node : Key) (path : List Key)
    (hdb : opts.directionBias = none) (trace : List (Key × ℚ)) (L : List Key) :
    ∀ (cq : Fmap ℚ × List AState), AQS d coordinates endK cq.1 cq.2 trace →
      AQS d coordinates endK
        (L.foldl (aRelax1 opts d coordinates endK row cost node path) cq).1
        (L.foldl (aRelax1 opts d coordinates endK row cost node path) cq).2
        trace := by
  induction L with
  | nil => exact fun cq h => h
  | cons x xs ih =>
    intro cq h
    rw [List.foldl_cons]
    exact ih _ (aRelax1_qs opts d coordinates endK row cost node path hdb
      trace cq x h)

/-- The full a-star optimality invariant. -/
def AOptInv (graph : Fmap (Fmap ℚ)) (start endK : Key)
    (d : Position → Position → ℚ) (coordinates : Option (Fmap Position))
    (costs : Fmap ℚ) (queue : List AState) (trace : List (Key × ℚ)) : Prop :=
  QKInv costs (amap queue) ∧
    queue.Pairwise (fun a b => a.estimate ≤ b.estimate) ∧
    (∀ e ∈ queue, e.estimate = e.cost + heuristic d coordinates e.node endK) ∧
    OInv costs (amap queue) trace ∧ RInv graph costs trace ∧
    (∃ c0, costs.get start = some c0 ∧ c0 ≤ 0) ∧ ∀ ev ∈ trace, ev.1 ≠ endK

theorem astale_opt (graph : Fmap (Fmap ℚ)) (start endK : Key)
    (d : Position → Position → ℚ) (coordinates : Option (Fmap Position))
    (st : AState) (rest : List AState) (costs : Fmap ℚ)
    (trace : List (Key × ℚ))
    (hinv : AOptInv graph start endK d coordinates costs (st :: rest) trace)
    (cs : ℚ) (hcs : costs.get st.node = some cs) (hlt : cs < st.cost) :
    AOptInv graph start endK d coordinates costs rest trace := by
  obtain ⟨hK, hS, hE, hO, hR, hZ, hH⟩ := hinv
  refine ⟨?_, (List.pairwise_cons.mp hS).2,
    fun e he => hE e (List.mem_cons_of_mem st he), ?_, hR, hZ, hH⟩
  · intro e he
    exact hK e (by rw [amap_cons]; exact List.mem_cons_of_mem _ he)
  · intro u c hc
    rcases hO u c hc with ⟨e, he, hen, hec⟩ | hev
    · rw [amap_cons] at he
      rcases List.mem_cons.mp he with h | h
      · rw [h] at hen hec
        dsimp only at hen hec
        rw [← hen] at hc
        rw [hcs, Option.some.injEq] at hc
        subst hc
        exact absurd hlt (not_lt.mpr hec)
      · exact Or.inl ⟨e, h, hen, hec⟩
    · exact Or.inr hev

theorem astep_opt (graph : Fmap (Fmap ℚ)) (start endK : Key)
    (opts : SharedSearchOptions) (d : Position → Position → ℚ)
    (coordinates : Option (Fmap Position)) (hdb : opts.directionBias = none)
    (st : AState) (rest : List AState) (costs : Fmap ℚ)
    (trace : List (Key × ℚ))
    (hinv : AOptInv graph start endK d coordinates costs (st :: rest) trace)
    (hne : st.node ≠ endK) :
    AOptInv graph start endK d coordinates
      (aRelax opts d coordinates endK ((graph.get st.node).getD Fmap.nil)
        st.cost st.node st.path costs rest).1
      (aRelax opts d coordinates endK ((graph.get st.node).getD Fmap.nil)
        st.cost st.node st.path costs rest).2
      (trace ++ [(st.node, st.cost)]) := by
  obtain ⟨hK, hS, hE, hO, hR, hZ, hH⟩ := hinv
  have hKr : QKInv costs (amap rest) := by
    intro e he
    exact hK e (by rw [amap_cons]; exact List.mem_cons_of_mem _ he)
  have hSr : rest.Pairwise (fun a b => a.estimate ≤ b.estimate) :=
    (List.pairwise_cons.mp hS).2
  have hEr : ∀ e ∈ rest, e.estimate =
      e.cost + heuristic d coordinates e.node endK :=
    fun e he => hE e (List.mem_cons_of_mem st he)
  have hOr : OInv costs (amap rest) (trace ++ [(st.node, st.cost)]) := by
    intro u c hc
    rcases hO u c hc with ⟨e, he, hen, hec⟩ | ⟨ev, hev, hevn, hevc⟩
    · rw [amap_cons] at he
      rcases List.mem_cons.mp he with h | h
      · right
        refine ⟨(st.node, st.cost),
          List.mem_append_right _ (List.mem_singleton.mpr rfl), ?_, ?_⟩
        · rw [h] at hen
          exact hen
        · rw [h] at hec
          exact hec
      · exact Or.inl ⟨e, h, hen, hec⟩
    · exact Or.inr ⟨ev, List.mem_append_left _ hev, hevn, hevc⟩
  have hqs := aRelaxFold_qs opts d coordinates endK
    ((graph.get st.node).getD Fmap.nil) st.cost st.node st.path hdb
    (trace ++ [(st.node, st.cost)])
    ((graph.get st.node).getD Fmap.nil).keys (costs, rest)
    ⟨hKr, hSr, hEr, hOr⟩
  refine ⟨hqs.1, hqs.2.1, hqs.2.2.1, hqs.2.2.2, ?_, ?_, ?_⟩
  · intro ev hev v wv hw
    rcases List.mem_append.mp hev with h | h
    · obtain ⟨cv, hcv, hcvle⟩ := hR ev h v wv hw
      obtain ⟨c2, hc2, hc2le⟩ := aRelaxFold_mono opts d coordinates endK
        ((graph.get st.node).getD Fmap.nil) st.cost st.node st.path hdb
        ((graph.get st.node).getD Fmap.nil).keys (costs, rest) v cv hcv
      exact ⟨c2, hc2, le_trans hc2le hcvle⟩
    · rw [List.mem_singleton] at h
      subst h
      unfold edgeWeight at hw
      rw [Option.bind_eq_some] at hw
      obtain ⟨row0, hrow0, hwv⟩ := hw
      have hrow : (graph.get st.node).getD Fmap.nil = row0 := by
        rw [hrow0, Option.getD_some]
      have hmem : v ∈ ((graph.get st.node).getD Fmap.nil).keys := by
        rw [hrow]
        exact Fmap.mem_keys_of_get_some row0 v wv hwv
      obtain ⟨c2, hc2, hc2le⟩ := aRelaxFold_bound opts d coordinates endK
        ((graph.get st.node).getD Fmap.nil) st.cost st.node st.path hdb
        ((graph.get st.node).getD Fmap.nil).keys (costs, rest) v hmem
      refine ⟨c2, hc2, ?_⟩
      rw [hrow, hwv, Option.getD_some] at hc2le
      linarith
  · obtain ⟨c0, hc0, hc0le⟩ := hZ
    obtain ⟨c2, hc2, hc2le⟩ := aRelaxFold_mono opts d coordinates endK
      ((graph.get st.node).getD Fmap.nil) st.cost st.node st.path hdb
      ((graph.get st.node).getD Fmap.nil).keys (costs, rest) start c0 hc0
    exact ⟨c2, hc2, le_trans hc2le hc0le⟩
  · intro ev hev
    rcases List.mem_append.mp hev with h | h
    · exact hH ev h
    · rw [List.mem_singleton] at h
      rw [h]
      exact hne

theorem astarLoop_opt (graph : Fmap (Fmap ℚ)) (start endK : Key)
    (opts : SharedSearchOptions) (d : Position → Position → ℚ)
    (coordinates : Option (Fmap Position)) (hdb : opts.directionBias = none)
    (hadm : ∀ k tail, isChain graph (k :: tail) = true →
      (k :: tail).getLast? = some endK →
      heuristic d coordinates k endK ≤ pathCost graph (k :: tail))
    (hEnd : heuristic d coordinates endK endK = 0) :
    ∀ (fuel : Nat) (costs : Fmap ℚ) (queue : List AState)
      (trace : List (Key × ℚ)),
      AOptInv graph start endK d coordinates costs queue trace →
      ∀ (res : Option (ℚ × List Key)) (tr : List (Key × ℚ)),
        astarLoop graph endK opts d coordinates fuel costs queue trace =
          some (res, tr) →
        ∀ (σtail : List Key), isChain graph (start :: σtail) = true →
          (start :: σtail).getLast? = some endK →
          ∃ w p, res = some (w, p) ∧ w ≤ pathCost graph (start :: σtail) := by
  intro fuel
  induction fuel with
  | zero =>
    intro costs queue trace hinv res tr hres
    exact absurd hres (by simp [astarLoop])
  | succ fuel ih =>
    intro costs queue trace hinv res tr hres σtail hch hlast
    cases queue with
    | nil =>
      obtain ⟨hK, hS, hE, hO, hR, hZ, hH⟩ := hinv
      obtain ⟨c0, hc0, hc0le⟩ := hZ
      have hrb := reachBound graph endK costs (amap []) trace hO hR σtail
        start 0 c0 hc0 hc0le hch hlast
      rcases hrb with ⟨e, he, _⟩ | ⟨c2, hc2, _⟩
      · exact absurd he (List.not_mem_nil e)
      · rcases hO endK c2 hc2 with ⟨e, he, _⟩ | ⟨ev, hev, hevn, _⟩
        · exact absurd he (List.not_mem_nil e)
        · exact absurd hevn (hH ev hev)
    | cons st rest =>
      rw [astarLoop_cons] at hres
      by_cases hstale : (match costs.get st.node with
          | some c => decide (c < st.cost)
          | none => false) = true
      · rw [if_pos hstale] at hres
        have hs2 : ∃ cs, costs.get st.node = some cs ∧ cs < st.cost := by
          cases hget : costs.get st.node with
          | none =>
            rw [hget] at hstale
            exact absurd hstale (by simp)
          | some cs =>
            rw [hget] at hstale
            exact ⟨cs, rfl, of_decide_eq_true hstale⟩
        obtain ⟨cs, hcs, hlt⟩ := hs2
        exact ih _ _ _ (astale_opt graph start endK d coordinates st rest
          costs trace hinv cs hcs hlt) res tr hres σtail hch hlast
      · rw [if_neg hstale] at hres
        obtain ⟨hK, hS, hE, hO, hR, hZ, hH⟩ := hinv
        obtain ⟨c1, hc1, hc1le⟩ := hK (st.node, st.cost)
          (by rw [amap_cons]; exact List.mem_cons_self _ _)
        have hnlt : ¬ c1 < st.cost := by
          intro hlt
          exact hstale (by rw [hc1]; exact decide_eq_true hlt)
        have hcs : costs.get st.node = some st.cost :=
          hc1.trans (congrArg some (le_antisymm hc1le (not_lt.mp hnlt)))
        by_cases hend : st.node = endK
        · rw [if_pos hend] at hres
          simp only [Option.some.injEq, Prod.mk.injEq] at hres
          refine ⟨st.cost, st.path, hres.1.symm, ?_⟩
          obtain ⟨c0, hc0, hc0le⟩ := hZ
          have hrb := reachBound graph endK costs (amap (st :: rest)) trace
            hO hR σtail start 0 c0 hc0 hc0le hch hlast
          rcases hrb with ⟨e, he, tail, hch2, hlast2, hb⟩ | ⟨c2, hc2, hb⟩
          · rw [amap_cons] at he
            rcases List.mem_cons.mp he with h | h
            · have he1 : e.1 = st.node := by rw [h]
              have he2 : e.2 = st.cost := by rw [h]
              have hadm2 := hadm e.1 tail hch2 hlast2
              rw [he1, hend, hEnd] at hadm2
              rw [he2, he1, hend] at hb
              linarith
            · unfold amap at h
              rw [List.mem_map] at h
              obtain ⟨ea, hea, heq⟩ := h
              have hn1 : e.1 = ea.node := by rw [← heq]
              have hn2 : e.2 = ea.cost := by rw [← heq]
              have hest : st.estimate ≤ ea.estimate :=
                (List.pairwise_cons.mp hS).1 ea hea
              have hest1 : st.estimate = st.cost + 0 := by
                rw [hE st (List.mem_cons_self st rest), hend, hEnd]
              have hest2 : ea.estimate =
                  ea.cost + heuristic d coordinates ea.node endK :=
                hE ea (List.mem_cons_of_mem st hea)
              have hadm2 := hadm e.1 tail hch2 hlast2
              rw [hn1] at hadm2
              rw [hn1, hn2] at hb
              linarith
          · rw [hend] at hcs
            rw [hcs, Option.some.injEq] at hc2
            subst hc2
            linarith
        · rw [if_neg hend] at hres
          exact ih _ _ _ (astep_opt graph start endK opts d coordinates hdb
            st rest costs trace ⟨hK, hS, hE, hO, hR, hZ, hH⟩ hend) res tr
            hres σtail hch hlast

/-- C4 (amended).  The two searches agree only under an admissible
heuristic: when every edge weight is positive, no turn restriction or
direction bias is configured, and the injected heuristic never
overestimates the remaining chain cost to the goal (and is zero at the
goal), a terminated Dijkstra run and a terminated a-star run on the same
compacted graph either both report no path or report paths of equal
weight.  With the kilometre-scaled great-circle heuristic the facade
always injects, this premise can fail against user-supplied weight
functions, and the searches then disagree. -/
theorem c4_dijkstra_astar_agree (graph : Fmap (Fmap ℚ)) (start endK : Key)
    (opts : SharedSearchOptions) (coordinates : Option (Fmap Position))
    (d : Position → Position → ℚ)
    (hta : opts.isTurnAllowed = none) (hdb : opts.directionBias = none)
    (hpos : allPos graph = true)
    (hadm : ∀ k tail, isChain graph (k :: tail) = true →
      (k :: tail).getLast? = some endK →
      heuristic d coordinates k endK ≤ pathCost graph (k :: tail))
    (hEnd : heuristic d coordinates endK endK = 0)
    (fuel1 fuel2 : Nat) (r1 r2 : Option (ℚ × List Key) × List (Key × ℚ))
    (h1 : findPathDijkstra fuel1 graph start endK opts = some r1)
    (h2 : findPathAStar fuel2 graph start endK opts coordinates d = some r2) :
    r1.1.map Prod.fst = r2.1.map Prod.fst := by
  have hpos' := edgeWeight_pos_of_allPos graph hpos
  have hgetsingle : ∀ u, Fmap.get [((start : Key), (0 : ℚ))] u =
      if start = u then some (0 : ℚ) else none := fun u => rfl
  have hget0 : ∀ u c, Fmap.get [((start : Key), (0 : ℚ))] u = some c →
      u = start ∧ c = 0 := by
    intro u c hc
    rw [hgetsingle] at hc
    by_cases hu : start = u
    · rw [if_pos hu, Option.some.injEq] at hc
      exact ⟨hu.symm, hc.symm⟩
    · rw [if_neg hu] at hc
      cases hc
  have hstart0 : Fmap.get [((start : Key), (0 : ℚ))] start = some 0 := by
    rw [hgetsingle, if_pos rfl]
  have hOinit : ∀ (qp : List (Key × ℚ)), ((start, (0 : ℚ)) ∈ qp) →
      OInv [(start, 0)] qp [] := by
    intro qp hqp u c hc
    obtain ⟨hu, hc0⟩ := hget0 u c hc
    exact Or.inl ⟨(start, 0), hqp, hu.symm, le_of_eq hc0.symm⟩
  have hinitD : DOptInv graph start endK [(start, 0)]
      [⟨0, [start], start⟩] [] := by
    refine ⟨?_, List.pairwise_singleton _ _, ?_,
      fun ev hev => absurd hev (List.not_mem_nil ev), ⟨0, hstart0, le_refl 0⟩,
      fun ev hev => absurd hev (List.not_mem_nil ev)⟩
    · intro e he
      unfold dmap at he
      rw [List.mem_map] at he
      obtain ⟨a, ha, hae⟩ := he
      rw [List.mem_singleton] at ha
      subst ha
      rw [← hae]
      exact ⟨0, hstart0, le_refl 0⟩
    · intro u c hc
      obtain ⟨hu, hc0⟩ := hget0 u c hc
      refine Or.inl ⟨(start, 0), ?_, hu.symm, le_of_eq hc0.symm⟩
      unfold dmap
      exact List.mem_map_of_mem _ (List.mem_singleton.mpr rfl)
  have hinitA : AOptInv graph start endK d coordinates [(start, 0)]
      [⟨0, heuristic d coordinates start endK, [start], start⟩] [] := by
    refine ⟨?_, List.pairwise_singleton _ _, ?_, ?_,
      fun ev hev => absurd hev (List.not_mem_nil ev), ⟨0, hstart0, le_refl 0⟩,
      fun ev hev => absurd hev (List.not_mem_nil ev)⟩
    · intro e he
      unfold amap at he
      rw [List.mem_map] at he
      obtain ⟨a, ha, hae⟩ := he
      rw [List.mem_singleton] at ha
      subst ha
      rw [← hae]
      exact ⟨0, hstart0, le_refl 0⟩
    · intro e he
      rw [List.mem_singleton] at he
      rw [he]
      exact (zero_add _).symm
    · intro u c hc
      obtain ⟨hu, hc0⟩ := hget0 u c hc
      refine Or.inl ⟨(start, 0), ?_, hu.symm, le_of_eq hc0.symm⟩
      unfold amap
      exact List.mem_map_of_mem _ (List.mem_singleton.mpr rfl)
  have h1' : dijkstraLoop graph endK opts fuel1 [(start, 0)]
      [⟨0, [start], start⟩] [] = some (r1.1, r1.2) := h1
  have h2' : astarLoop graph endK opts d coordinates fuel2 [(start, 0)]
      [⟨0, heuristic d coordinates start endK, [start], start⟩] [] =
        some (r2.1, r2.2) := h2
  have hoptD := dijkstraLoop_opt graph start endK opts hta hdb hpos' fuel1
    _ _ _ hinitD r1.1 r1.2 h1'
  have hoptA := astarLoop_opt graph start endK opts d coordinates hdb hadm
    hEnd fuel2 _ _ _ hinitA r2.1 r2.2 h2'
  have hinitDE : ∀ e ∈ ([⟨0, [start], start⟩] : List DState),
      DEntryInv graph start e := by
    intro e he
    rw [List.mem_singleton] at he
    subst he
    exact ⟨rfl, rfl, rfl, rfl⟩
  have hinitAE : ∀ e ∈ ([⟨0, heuristic d coordinates start endK, [start],
      start⟩] : List AState), AEntryInv graph start e := by
    intro e he
    rw [List.mem_singleton] at he
    subst he
    exact ⟨rfl, rfl, rfl, rfl⟩
  cases hr1 : r1.1 with
  | none =>
    cases hr2 : r2.1 with
    | none => rfl
    | some wp2 =>
      obtain ⟨w2, p2⟩ := wp2
      rw [hr2] at h2'
      obtain ⟨hhd2, hlst2, hchn2, _⟩ := astarLoop_sound graph endK opts d
        coordinates start hdb fuel2 _ _ _ hinitAE w2 p2 r2.2 h2'
      cases p2 with
      | nil => exact absurd hhd2 (by simp)
      | cons a2 tl2 =>
        rw [List.head?_cons, Option.some.injEq] at hhd2
        rw [hhd2] at hchn2 hlst2
        obtain ⟨w, p, hsome, _⟩ := hoptD tl2 hchn2 hlst2
        rw [hr1] at hsome
        cases hsome
  | some wp1 =>
    obtain ⟨w1, p1⟩ := wp1
    rw [hr1] at h1'
    obtain ⟨hhd1, hlst1, hchn1, hwc1⟩ := dijkstraLoop_sound graph endK opts
      start hdb fuel1 _ _ _ hinitDE w1 p1 r1.2 h1'
    cases hr2 : r2.1 with
    | none =>
      cases p1 with
      | nil => exact absurd hhd1 (by simp)
      | cons a1 tl1 =>
        rw [List.head?_cons, Option.some.injEq] at hhd1
        rw [hhd1] at hchn1 hlst1
        obtain ⟨w, p, hsome, _⟩ := hoptA tl1 hchn1 hlst1
        rw [hr2] at hsome
        cases hsome
    | some wp2 =>
      obtain ⟨w2, p2⟩ := wp2
      rw [hr2] at h2'
      obtain ⟨hhd2, hlst2, hchn2, hwc2⟩ := astarLoop_sound graph endK opts d
        coordinates start hdb fuel2 _ _ _ hinitAE w2 p2 r2.2 h2'
      cases p1 with
      | nil => exact absurd hhd1 (by simp)
      | cons a1 tl1 =>
        cases p2 with
        | nil => exact absurd hhd2 (by simp)
        | cons a2 tl2 =>
          rw [List.head?_cons, Option.some.injEq] at hhd1 hhd2
          rw [hhd1] at hchn1 hlst1 hwc1
          rw [hhd2] at hchn2 hlst2 hwc2
          obtain ⟨w, p, hsome, hb1⟩ := hoptD tl2 hchn2 hlst2
          rw [hr1, Option.some.injEq] at hsome
          have hwa : w1 = w := congrArg Prod.fst hsome
          rw [← hwa] at hb1
          obtain ⟨w', p', hsome2, hb2⟩ := hoptA tl1 hchn1 hlst1
          rw [hr2, Option.some.injEq] at hsome2
          have hwb : w2 = w' := congrArg Prod.fst hsome2
          rw [← hwb] at hb2
          exact congrArg some (le_antisymm (by rw [← hwc2] at hb1; exact hb1)
            (by rw [← hwc1] at hb2; exact hb2))

theorem c4_dijkstra_astar_agree_witness :
    ((some ((13 : ℚ), ["s", "m", "n", "z"]) :
        Option (ℚ × List Key))).map Prod.fst =
      ((some ((13 : ℚ), ["s", "m", "n", "z"]) :
        Option (ℚ × List Key))).map Prod.fst :=
  c4_dijkstra_astar_agree dStaleGraph "s" "z" {} none (fun _ _ => 0) rfl rfl
    (by with_unfolding_all rfl)
    (fun k tail hch hlst => by
      have h0 : heuristic (fun _ _ => (0 : ℚ)) none k "z" = 0 := rfl
      rw [h0]
      exact pathCost_nonneg_of_chain dStaleGraph
        (edgeWeight_pos_of_allPos dStaleGraph (by with_unfolding_all rfl))
        _ hch)
    rfl 10 10
    (some (13, ["s", "m", "n", "z"]),
      [("s", 0), ("m", 1), ("n", 3), ("n", 5), ("z", 13)])
    (some (13, ["s", "m", "n", "z"]),
      [("s", 0), ("m", 1), ("n", 3), ("z", 13)])
    (by with_unfolding_all rfl) (by with_unfolding_all rfl)

end GeoPF
